import Mathlib

/-!
# Verification of the blinky resolver/scheduler specification

The repository ships a thin packaging descriptor (`setup.py`); the resolver,
scheduler and orchestrator described by the specification are not part of the
shipped sources.  Following the specification, each of those components is
modelled here as an executable Lean definition, and the stated properties are
proved against those models.  `setup.py` itself is embedded directly.

The file is organised as definitions first, then theorems.
-/

namespace Blinky

/-! ## Versions and the version comparator (spec §4.1)

Modelled from the spec: `VersionComparator` is absent from `src/`.  A version
is parsed into an epoch, an upstream part and a release part; upstream and
release are sequences of alphanumeric/numeric segments.
-/

/-- One segment of an upstream or release version string: either a numeric
run or an alphabetic run. -/
inductive Seg where
  | num (n : Nat)
  | alpha (s : String)
deriving DecidableEq, Repr

/-- A structured version: epoch, upstream segments, release segments. -/
structure Version where
  epoch : Nat
  upstream : List Seg
  release : List Seg
deriving DecidableEq, Repr

/-- Three-way comparison on a linear order, used for the numeric and
character sub-comparisons of the version comparator. -/
def cmpLin {α : Type} [LinearOrder α] (a b : α) : Ordering :=
  if a < b then .lt else if b < a then .gt else .eq

/-- Lexicographic extension of a three-way comparison to lists; a missing
trailing element sorts lower than any present element. -/
def cmpLex {α : Type} (cmp : α → α → Ordering) :
    List α → List α → Ordering
  | [], [] => .eq
  | [], _ :: _ => .lt
  | _ :: _, [] => .gt
  | a :: as, b :: bs => (cmp a b).then (cmpLex cmp as bs)

/-- Lexical comparison of strings, character by character. -/
def cmpStr (a b : String) : Ordering :=
  cmpLex cmpLin a.data b.data

/-- Modelled from the spec: segment comparison — numeric segments compared
numerically, alphabetic segments lexicographically, and a pure-numeric
segment beats a pure-alphabetic one at a tie position. -/
def cmpSeg : Seg → Seg → Ordering
  | .num a, .num b => cmpLin a b
  | .alpha a, .alpha b => cmpStr a b
  | .num _, .alpha _ => .gt
  | .alpha _, .num _ => .lt

/-- Modelled from the spec: segment-by-segment comparison of upstream or
release parts. -/
def cmpSegs : List Seg → List Seg → Ordering :=
  cmpLex cmpSeg

/-- Modelled from the spec: `VersionComparator.compare` — epoch first
(numeric), then upstream, then release. -/
def vercmp (a b : Version) : Ordering :=
  (cmpLin a.epoch b.epoch).then ((cmpSegs a.upstream b.upstream).then
    (cmpSegs a.release b.release))

/-! ## Packages, constraints and the catalog (spec §3, §4.2)

Modelled from the spec: `Package`, `PackageCatalog.lookup` and
`PackageCatalog.best_candidate` are absent from `src/`.
-/

/-- Version-constraint relations. -/
inductive Rel where
  | rLt
  | rLe
  | rEq
  | rGe
  | rGt
deriving DecidableEq, Repr

/-- A version constraint: a relation and a target version. -/
structure Constraint where
  rel : Rel
  target : Version
deriving DecidableEq, Repr

/-- Whether a relation accepts a comparison outcome. -/
def relHolds (r : Rel) (o : Ordering) : Bool :=
  match r with
  | .rLt => o = .lt
  | .rLe => o ≠ .gt
  | .rEq => o = .eq
  | .rGe => o ≠ .lt
  | .rGt => o = .gt

/-- Modelled from the spec: `satisfies(version, constraint)`; a missing
constraint is always satisfied. -/
def satisfies (v : Version) (c : Option Constraint) : Bool :=
  match c with
  | none => true
  | some c => relHolds c.rel (vercmp v c.target)

/-- The three package universes. -/
inductive SourceKind where
  | installed
  | binaryRepo
  | sourceRepo
deriving DecidableEq, Repr

/-- A package loaded from a catalog snapshot (immutable during a run). -/
structure Package where
  name : String
  version : Version
  kind : SourceKind
  deps : List (String × Option Constraint)
  provides : List String
  conflicts : List String
deriving DecidableEq, Repr

/-- A catalog is the read-only union of the installed, binary-repo and
source-repo snapshots, each entry tagged with its source kind. -/
abbrev Catalog : Type := List Package

/-- Modelled from the spec: `lookup(name)` — all candidates across all
source kinds that either are named `name` or provide it. -/
def lookupCandidates (cat : Catalog) (name : String) : List Package :=
  List.filter (fun p => p.name == name || p.provides.contains name) cat

/-- Priority rank of a source kind: Installed before BinaryRepo before
SourceRepo. -/
def kindRank : SourceKind → Nat
  | .installed => 0
  | .binaryRepo => 1
  | .sourceRepo => 2

/-- Modelled from the spec: the selection order of `best_candidate` —
source-kind priority first, then higher version, then lexically smaller
name; `.lt` means the left candidate is preferred. -/
def candCmp (a b : Package) : Ordering :=
  (cmpLin (kindRank a.kind) (kindRank b.kind)).then
    ((vercmp b.version a.version).then (cmpStr a.name b.name))

/-- Resolution-phase errors (spec §7).  `internal` is an artifact of the
fuel-based embedding of the breadth-first builder and corresponds to no
spec-level error. -/
inductive ResolutionError where
  | unresolvable (requester : String)
  | conflict (a b : String)
  | unresolvedDep (chain : List String)
  | cycleErr (path : List String)
  | internal
deriving DecidableEq, Repr

/-- The satisfying candidates for a name under a constraint. -/
def satCandidates (cat : Catalog) (name : String) (c : Option Constraint) :
    List Package :=
  List.filter (fun p => satisfies p.version c) (lookupCandidates cat name)

/-- Modelled from the spec: `best_candidate(name, constraint)` — the most
preferred satisfying candidate under `candCmp`, or `Unresolvable` carrying
the requesting package's name when no candidate satisfies the
constraint. -/
def bestCandidate (cat : Catalog) (requester name : String)
    (c : Option Constraint) : Except ResolutionError Package :=
  match satCandidates cat name c with
  | [] => .error (.unresolvable requester)
  | p :: ps => .ok (ps.foldl (fun best q =>
      if candCmp q best = .lt then q else best) p)

/-! ## Dependency graph and the scheduler (spec §4.4)

Modelled from the spec: `CycleDetector` and `TopologicalScheduler` are
absent from `src/`.  The graph is an adjacency mapping on interned names
(spec §9); `schedule` tiers the graph by repeated removal of ready nodes
(Kahn's algorithm) and, on a stall, walks depends-on edges inside the
stalled node set until a node repeats, reporting the closed walk as the
cycle path.
-/

/-- A dependency graph: adjacency list mapping each resolved package name
to the names it depends on. -/
structure DepGraph where
  adj : List (String × List String)
deriving DecidableEq, Repr

/-- The node names of a graph. -/
def DepGraph.nodes (g : DepGraph) : List String :=
  g.adj.map Prod.fst

/-- The depends-on adjacency of a node. -/
def depsOf (g : DepGraph) (n : String) : List String :=
  match g.adj.find? (fun e => e.fst == n) with
  | none => []
  | some e => e.snd

/-- Whether the walk described by `c` closes back on its first element via
a depends-on edge. -/
def closesBack (g : DepGraph) (c : List String) : Bool :=
  match c.head?, c.getLast? with
  | some h, some l => (depsOf g l).contains h
  | _, _ => false

/-- Whether each consecutive pair of `c` is a depends-on edge. -/
def chainB (g : DepGraph) : List String → Bool
  | [] => true
  | [_] => true
  | a :: b :: rest => (depsOf g a).contains b && chainB g (b :: rest)

/-- `c` is a cycle of `g`: a nonempty ordered sequence of nodes in which
each consecutive pair is a depends-on edge and whose last element depends
back on the first. -/
def IsCycleIn (g : DepGraph) (c : List String) : Prop :=
  c ≠ [] ∧ (∀ n ∈ c, n ∈ g.nodes) ∧ chainB g c = true ∧
  closesBack g c = true

instance (g : DepGraph) (c : List String) : Decidable (IsCycleIn g c) :=
  decidable_of_iff (c ≠ [] ∧ (∀ n ∈ c, n ∈ g.nodes) ∧ chainB g c = true ∧
    closesBack g c = true) Iff.rfl

/-- A graph is acyclic when it has no cycle. -/
def Acyclic (g : DepGraph) : Prop :=
  ∀ c, ¬ IsCycleIn g c

/-- A node is ready once every dependency that is a node of the graph has
already been placed in an earlier tier. -/
def readyIn (g : DepGraph) (placed : List String) (n : String) : Bool :=
  (depsOf g n).all (fun d => !(g.nodes.contains d) || placed.contains d)

/-- The first dependency of `n` that lies in `s`; used to walk a cycle
inside a stalled node set. -/
def pickDep (g : DepGraph) (s : List String) (n : String) : Option String :=
  (depsOf g n).find? (fun d => s.contains d)

/-- Walk depends-on edges inside the stalled set `s`, extending `path`
until a node repeats, then return the closed walk. -/
def walkCycle (g : DepGraph) (s : List String) :
    Nat → List String → List String
  | 0, _ => []
  | fuel + 1, path =>
    match path.getLast? with
    | none => []
    | some n =>
      match pickDep g s n with
      | none => []
      | some d =>
        if d ∈ path then path.dropWhile (fun x => !(x == d))
        else walkCycle g s fuel (path ++ [d])

/-- Modelled from the spec: when the scheduler stalls, report the full
cycle as an ordered sequence of names. -/
def extractCycle (g : DepGraph) (s : List String) : List String :=
  match s with
  | [] => []
  | x :: _ => walkCycle g s s.length [x]

/-- Modelled from the spec: tiering by repeated removal of ready nodes
(Kahn's algorithm); a stall means a dependency cycle among the remaining
nodes, reported as a cycle path.  The fuel argument only bounds the
recursion; every call site passes at least the number of remaining
nodes, which the lemmas below show is always enough. -/
def kahnAux (g : DepGraph) : Nat → List String → List String →
    Except (List String) (List (List String))
  | 0, _, _ => .ok []
  | fuel + 1, placed, remaining =>
    if remaining.length = 0 then .ok []
    else if (remaining.filter (readyIn g placed)).length = 0 then
      .error (extractCycle g remaining)
    else
      match kahnAux g fuel (placed ++ remaining.filter (readyIn g placed))
          (remaining.filter (fun n => !(readyIn g placed n))) with
      | .error e => .error e
      | .ok tiers => .ok (remaining.filter (readyIn g placed) :: tiers)

/-- Insert a name into a list sorted by the lexical comparator. -/
def insertSorted (a : String) : List String → List String
  | [] => [a]
  | b :: bs =>
    if cmpStr a b = .gt then b :: insertSorted a bs else a :: b :: bs

/-- Names sorted by the lexical comparator (for deterministic tiers). -/
def sortNames : List String → List String
  | [] => []
  | a :: as => insertSorted a (sortNames as)

/-- Remove duplicate names, keeping the last occurrence of each. -/
def dedupNames : List String → List String
  | [] => []
  | a :: as => if a ∈ as then dedupNames as else a :: dedupNames as

/-- Modelled from the spec: `schedule(graph) -> BuildPlan or CycleError`.
The plan is a list of tiers of node names. -/
def schedule (g : DepGraph) : Except (List String) (List (List String)) :=
  kahnAux g (sortNames (dedupNames g.nodes)).length []
    (sortNames (dedupNames g.nodes))

/-! ## Build results and the orchestrator (spec §3, §4.5)

Modelled from the spec: `BuildOrchestrator` is absent from `src/`.  The
orchestrator walks the plan tier by tier (within a tier the packages are
mutually independent, so the sequential left-to-right walk below is the
deterministic equivalent of the bounded-concurrency execution);
per-package results are written once and never revised.  `runPlan` also
returns the list of packages whose external action was attempted.
-/

/-- Per-package terminal build state. -/
inductive BuildResult where
  | skipped
  | succeeded
  | failed
  | blocked
deriving DecidableEq, Repr

/-- Look up a package's recorded result (first write wins; results are
never revised). -/
def resultOf (res : List (String × BuildResult)) (n : String) :
    Option BuildResult :=
  match res.find? (fun e => e.fst == n) with
  | none => none
  | some e => some e.snd

/-- Whether a recorded result blocks dependents (Failed or Blocked). -/
def blocksDependents : Option BuildResult → Bool
  | some .failed => true
  | some .blocked => true
  | _ => false

/-- Modelled from the spec: processing of one package — mark Blocked when
a direct dependency is Failed or Blocked (without attempting the action),
Skipped when the package is already installed at a sufficient version
(abstracted as the `skip` predicate), else record the external action's
outcome.  The second state component is the log of attempted actions. -/
def processPackage (g : DepGraph) (skip action : String → Bool)
    (st : List (String × BuildResult) × List String) (p : String) :
    List (String × BuildResult) × List String :=
  if (depsOf g p).any (fun d => blocksDependents (resultOf st.fst d)) then
    (st.fst ++ [(p, .blocked)], st.snd)
  else if skip p then
    (st.fst ++ [(p, .skipped)], st.snd)
  else if action p then
    (st.fst ++ [(p, .succeeded)], st.snd ++ [p])
  else
    (st.fst ++ [(p, .failed)], st.snd ++ [p])

/-- Modelled from the spec: `run(plan, executors)` — advance tier by
tier, package by package. -/
def runPlan (g : DepGraph) (skip action : String → Bool)
    (plan : List (List String)) :
    List (String × BuildResult) × List String :=
  plan.flatten.foldl (processPackage g skip action) ([], [])

/-- `q` transitively depends on `p` in `g`. -/
def TransDepOn (g : DepGraph) (q p : String) : Prop :=
  Relation.TransGen (fun a b => b ∈ depsOf g a) q p

/-! ## Dependency graph builder (spec §4.3)

Modelled from the spec: `DependencyGraphBuilder` is absent from `src/`.
Breadth-first expansion from the roots; each queue entry carries the
dependency chain of resolved names from its root, used for
`UnresolvedDependencyError` reporting.  Resolved logical names are
memoized so diamond dependencies converge to one node.
-/

/-- The breadth-first builder state: resolved packages in resolution
order, resolved depends-on edges, the logical-name memo table, and the
work queue of packages (with their root chains) whose dependencies are
still to be expanded. -/
structure BuildSt where
  chosen : List Package
  edges : List (String × String)
  memo : List (String × String)
  queue : List (Package × List String)
deriving Repr

/-- Modelled from the spec: expansion of the declared dependencies of one
frontier package `p` whose chain from its root is `chain`.  A missing
dependency yields `UnresolvedDependencyError` with the chain extended by
the failing name; a candidate conflicting with an already chosen package
yields `ConflictError` naming both. -/
def resolveDeps (cat : Catalog) (p : Package) (chain : List String) :
    List (String × Option Constraint) → BuildSt →
    Except ResolutionError BuildSt
  | [], st => .ok st
  | (dname, c) :: rest, st =>
    match st.memo.find? (fun e => e.fst == dname) with
    | some e =>
      resolveDeps cat p chain rest
        ⟨st.chosen, st.edges ++ [(p.name, e.snd)], st.memo, st.queue⟩
    | none =>
      match bestCandidate cat p.name dname c with
      | .error _ => .error (.unresolvedDep (chain ++ [dname]))
      | .ok q =>
        match st.chosen.find? (fun r =>
            q.conflicts.contains r.name || r.conflicts.contains q.name) with
        | some r => .error (.conflict r.name q.name)
        | none =>
          if st.chosen.any (fun r => r.name == q.name) then
            resolveDeps cat p chain rest
              ⟨st.chosen, st.edges ++ [(p.name, q.name)],
               st.memo ++ [(dname, q.name)], st.queue⟩
          else
            resolveDeps cat p chain rest
              ⟨st.chosen ++ [q], st.edges ++ [(p.name, q.name)],
               st.memo ++ [(dname, q.name)],
               st.queue ++ [(q, chain ++ [q.name])]⟩

/-- Modelled from the spec: the breadth-first work loop.  The fuel only
bounds the recursion (every enqueued package is a newly chosen one, so
the call site's fuel suffices); exhaustion is reported as the embedding
artifact `internal`. -/
def buildLoop (cat : Catalog) : Nat → BuildSt →
    Except ResolutionError BuildSt
  | 0, st =>
    match st.queue with
    | [] => .ok st
    | _ :: _ => .error .internal
  | fuel + 1, st =>
    match st.queue with
    | [] => .ok st
    | (p, chain) :: rest =>
      match resolveDeps cat p chain p.deps
          ⟨st.chosen, st.edges, st.memo, rest⟩ with
      | .error e => .error e
      | .ok st2 => buildLoop cat fuel st2

/-- Modelled from the spec: resolution of the requested root names; a
root with no satisfying candidate surfaces `Unresolvable` with the
root's name. -/
def resolveRoots (cat : Catalog) : List String → BuildSt →
    Except ResolutionError BuildSt
  | [], st => .ok st
  | r :: rs, st =>
    match st.memo.find? (fun e => e.fst == r) with
    | some _ => resolveRoots cat rs st
    | none =>
      match bestCandidate cat r r none with
      | .error err => .error err
      | .ok q =>
        match st.chosen.find? (fun t =>
            q.conflicts.contains t.name || t.conflicts.contains q.name) with
        | some t => .error (.conflict t.name q.name)
        | none =>
          if st.chosen.any (fun t => t.name == q.name) then
            resolveRoots cat rs
              ⟨st.chosen, st.edges, st.memo ++ [(r, q.name)], st.queue⟩
          else
            resolveRoots cat rs
              ⟨st.chosen ++ [q], st.edges, st.memo ++ [(r, q.name)],
               st.queue ++ [(q, [q.name])]⟩

/-- Modelled from the spec: `build(roots) -> DependencyGraph or
ResolutionError`, returning the chosen packages and resolved edges. -/
def build (cat : Catalog) (roots : List String) :
    Except ResolutionError (List Package × List (String × String)) :=
  match resolveRoots cat roots ⟨[], [], [], []⟩ with
  | .error e => .error e
  | .ok st =>
    match buildLoop cat (cat.length + roots.length + 1) st with
    | .error e => .error e
    | .ok st2 => .ok (st2.chosen, st2.edges)

/-- The adjacency graph of a build result. -/
def graphOf (chosen : List Package) (edges : List (String × String)) :
    DepGraph :=
  ⟨chosen.map (fun p =>
    (p.name, (edges.filter (fun e => e.fst == p.name)).map Prod.snd))⟩

/-- Resolution: build the dependency graph for the requested roots. -/
def blinkyResolve (cat : Catalog) (roots : List String) :
    Except ResolutionError DepGraph :=
  match build cat roots with
  | .error e => .error e
  | .ok (chosen, edges) => .ok (graphOf chosen edges)

/-- Resolution followed by scheduling. -/
def blinkyPlan (cat : Catalog) (roots : List String) :
    Except ResolutionError (List (List String)) :=
  match blinkyResolve cat roots with
  | .error e => .error e
  | .ok g =>
    match schedule g with
    | .error path => .error (.cycleErr path)
    | .ok plan => .ok plan

/-- The whole pipeline: resolve, schedule, then orchestrate.  The second
component is the log of attempted build/install actions; a resolution or
scheduling error executes nothing. -/
def blinkyMain (cat : Catalog) (roots : List String)
    (skip action : String → Bool) :
    Except ResolutionError (List (String × BuildResult)) × List String :=
  match blinkyResolve cat roots with
  | .error e => (.error e, [])
  | .ok g =>
    match schedule g with
    | .error path => (.error (.cycleErr path), [])
    | .ok plan =>
      (.ok (runPlan g skip action plan).fst,
       (runPlan g skip action plan).snd)

/-- One declared-dependency link of a reported chain: `a` is the name of
a catalog package that declares a dependency which either is literally
named `b` or resolves to a package named `b`. -/
def DeclLink (cat : Catalog) (a b : String) : Prop :=
  ∃ pa ∈ cat, pa.name = a ∧ ∃ dn oc, (dn, oc) ∈ pa.deps ∧
    (b = dn ∨ ∃ pb, bestCandidate cat a dn oc = .ok pb ∧ pb.name = b)

/-- Invariant of one work-queue entry: the package is a catalog entry,
its chain is a nonempty sequence of resolved names that starts at the
resolved package of some root, links declared dependencies, and ends at
the entry's own name. -/
def QueueEntryOk (cat : Catalog) (roots : List String)
    (e : Package × List String) : Prop :=
  e.fst ∈ cat ∧ e.snd ≠ [] ∧ e.snd.getLast? = some e.fst.name ∧
  (∃ r ∈ roots, ∃ q, bestCandidate cat r r none = .ok q ∧
    e.snd.head? = some q.name) ∧
  List.Chain' (DeclLink cat) e.snd

/-- Invariant of the builder state: chosen package names are unique,
chosen packages come from the catalog, no two distinct chosen packages
declare each other (in either direction) as conflicting, and every queue
entry is well-formed. -/
def GoodState (cat : Catalog) (roots : List String) (st : BuildSt) :
    Prop :=
  (st.chosen.map Package.name).Nodup ∧
  (∀ p ∈ st.chosen, p ∈ cat) ∧
  (∀ p ∈ st.chosen, ∀ q ∈ st.chosen, p ≠ q →
    p.name ∉ q.conflicts ∧ q.name ∉ p.conflicts) ∧
  (∀ e ∈ st.queue, QueueEntryOk cat roots e)

/-- What `UnresolvedDependencyError` must report: a chain of at least two
names that starts at the resolved package of a root and whose consecutive
pairs are declared-dependency links. -/
def ChainProp (cat : Catalog) (roots : List String)
    (chain : List String) : Prop :=
  2 ≤ chain.length ∧
  (∃ r ∈ roots, ∃ q, bestCandidate cat r r none = .ok q ∧
    chain.head? = some q.name) ∧
  List.Chain' (DeclLink cat) chain

/-! ## The packaging descriptor (src/setup.py)

This is the one component present in `src/`; it is embedded directly.
The working directory is modelled as a partial map from file names to
contents.
-/

/-- The metadata record passed to `distutils.core.setup` by
`src/setup.py`. -/
structure SetupArgs where
  name : String
  version : String
  author : String
  authorEmail : String
  packages : List String
  scripts : List String
  url : String
  license : String
  description : String
  longDescription : String
  longDescriptionContentType : String
deriving DecidableEq, Repr

/-- Embedded from `src/setup.py`: evaluating the module reads
`README.md` from the working directory and then calls `setup` with the
fixed metadata; a missing `README.md` raises before `setup` is invoked,
modelled as `none`. -/
def setupMain (fs : String → Option String) : Option SetupArgs :=
  match fs "README.md" with
  | none => none
  | some contents =>
    some ⟨"blinky", "0.1", "Jonas Große Sundrup", "cherti@letopolis.de",
      ["blinky"], ["scripts/blinky"], "https://github.com/cherti/blinky",
      "GPLv3", "AUR-helper with minimal hassle", contents,
      "text/markdown"⟩

/-! ## Concrete instances used by witnesses -/

/-- A concrete single-segment version. -/
def verN (n : Nat) : Version := ⟨0, [.num n], []⟩

/-- The C4 scenario graph: `pB` depends on `pA`; `pC` is independent. -/
def gC4 : DepGraph :=
  ⟨[("pA", []), ("pB", ["pA"]), ("pC", [])]⟩

/-- The C4 scenario plan: tier 0 is `pA`, tier 1 is `pB` and `pC`. -/
def planC4 : List (List String) :=
  [["pA"], ["pB", "pC"]]

/-- The C4 scenario executor: the action for `pA` fails, all others
succeed. -/
def actC4 : String → Bool :=
  fun n => !(n == "pA")

/-- A skip predicate that skips nothing. -/
def skipNone : String → Bool :=
  fun _ => false

/-- A skip predicate that skips `pC` (already installed). -/
def skipC4 : String → Bool :=
  fun n => n == "pC"

/-- Shared dependency of the diamond scenario. -/
def pkgZ : Package := ⟨"libZ", verN 1, .binaryRepo, [], [], []⟩

/-- First root of the diamond scenario, depending on `libZ`. -/
def pkgX : Package :=
  ⟨"rootX", verN 1, .binaryRepo, [("libZ", none)], [], []⟩

/-- Second root of the diamond scenario, depending on `libZ`. -/
def pkgY : Package :=
  ⟨"rootY", verN 1, .binaryRepo, [("libZ", none)], [], []⟩

/-- The diamond-dependency catalog for the C6 witness. -/
def catC6 : Catalog := [pkgX, pkgY, pkgZ]

/-- A package declaring `cfB` as conflicting. -/
def pkgCfA : Package := ⟨"cfA", verN 1, .binaryRepo, [], [], ["cfB"]⟩

/-- A package declaring `cfA` as conflicting. -/
def pkgCfB : Package := ⟨"cfB", verN 1, .binaryRepo, [], [], ["cfA"]⟩

/-- The mutual-conflict catalog for the C8 witness. -/
def catC8 : Catalog := [pkgCfA, pkgCfB]

/-- Root package of the missing-dependency scenario. -/
def pkgTop : Package :=
  ⟨"top", verN 1, .sourceRepo, [("mid", none)], [], []⟩

/-- Middle package of the missing-dependency scenario; its dependency
`ghost` is in no catalog. -/
def pkgMid : Package :=
  ⟨"mid", verN 1, .sourceRepo, [("ghost", none)], [], []⟩

/-- The missing-dependency catalog for the C9 witness. -/
def catC9 : Catalog := [pkgTop, pkgMid]

/-- A working directory containing a `README.md`. -/
def fsWithReadme : String → Option String :=
  fun n => if n == "README.md" then some "hello" else none

/-- A working directory with no `README.md`. -/
def fsEmpty : String → Option String :=
  fun _ => none

/-- A three-node acyclic chain used by the C1 witness. -/
def gLinear : DepGraph :=
  ⟨[("libA", []), ("libB", ["libA"]), ("libC", ["libB"])]⟩

/-- A two-node cyclic graph used by the C2 witness. -/
def gCyclic : DepGraph :=
  ⟨[("pkgX", ["pkgY"]), ("pkgY", ["pkgX"])]⟩

/-- An installed candidate for the C5 witness catalog. -/
def zlibInstalled : Package :=
  ⟨"zlib", verN 1, .installed, [], [], []⟩

/-- A binary-repo candidate for the C5 witness catalog. -/
def zlibBinary : Package :=
  ⟨"zlib", verN 2, .binaryRepo, [], [], []⟩

/-- A source-repo candidate for the C5 witness catalog. -/
def zlibSource : Package :=
  ⟨"zlib", verN 3, .sourceRepo, [], [], []⟩

/-- The C5 witness catalog. -/
def catalogC5 : Catalog := [zlibInstalled, zlibBinary, zlibSource]

/-! # Theorems -/

/-! ### Generic facts about three-way comparisons -/

theorem Ordering.then_eq_lt (o p : Ordering) :
    o.then p = .lt ↔ o = .lt ∨ (o = .eq ∧ p = .lt) := by
  cases o <;> simp [Ordering.then]

theorem Ordering.then_eq_eq (o p : Ordering) :
    o.then p = .eq ↔ o = .eq ∧ p = .eq := by
  cases o <;> simp [Ordering.then]

theorem Ordering.then_swap (o p : Ordering) :
    (o.then p).swap = o.swap.then p.swap := by
  cases o <;> simp [Ordering.then, Ordering.swap]

theorem cmpLin_swap {α : Type} [LinearOrder α] (a b : α) :
    (cmpLin a b).swap = cmpLin b a := by
  unfold cmpLin
  rcases lt_trichotomy a b with h | h | h
  · simp [h, not_lt_of_gt h, Ordering.swap]
  · simp [h, lt_irrefl, Ordering.swap]
  · simp [h, not_lt_of_gt h, Ordering.swap]

theorem cmpLin_eq_iff {α : Type} [LinearOrder α] (a b : α) :
    cmpLin a b = .eq ↔ a = b := by
  unfold cmpLin
  rcases lt_trichotomy a b with h | h | h
  · simp [h, ne_of_lt h]
  · simp [h, lt_irrefl]
  · simp [h, not_lt_of_gt h, (ne_of_gt h)]

theorem cmpLin_lt_iff {α : Type} [LinearOrder α] (a b : α) :
    cmpLin a b = .lt ↔ a < b := by
  unfold cmpLin
  rcases lt_trichotomy a b with h | h | h
  · simp [h]
  · simp [h, lt_irrefl]
  · simp [h, not_lt_of_gt h]

theorem cmpLin_trans {α : Type} [LinearOrder α] {a b c : α}
    (h₁ : cmpLin a b = .lt) (h₂ : cmpLin b c = .lt) : cmpLin a c = .lt := by
  rw [cmpLin_lt_iff] at h₁ h₂ ⊢
  exact lt_trans h₁ h₂

theorem cmpLex_swap {α : Type} (cmp : α → α → Ordering)
    (hswap : ∀ a b, (cmp a b).swap = cmp b a) (as bs : List α) :
    (cmpLex cmp as bs).swap = cmpLex cmp bs as := by
  induction as generalizing bs with
  | nil => cases bs <;> simp [cmpLex, Ordering.swap]
  | cons a as ih =>
    cases bs with
    | nil => simp [cmpLex, Ordering.swap]
    | cons b bs =>
      simp [cmpLex, Ordering.then_swap, hswap, ih]

theorem cmpLex_eq_iff {α : Type} (cmp : α → α → Ordering)
    (heq : ∀ a b, cmp a b = .eq ↔ a = b) (as bs : List α) :
    cmpLex cmp as bs = .eq ↔ as = bs := by
  induction as generalizing bs with
  | nil => cases bs <;> simp [cmpLex]
  | cons a as ih =>
    cases bs with
    | nil => simp [cmpLex]
    | cons b bs =>
      simp [cmpLex, Ordering.then_eq_eq, heq, ih]

theorem cmpLex_trans {α : Type} (cmp : α → α → Ordering)
    (heq : ∀ a b, cmp a b = .eq ↔ a = b)
    (htrans : ∀ {a b c}, cmp a b = .lt → cmp b c = .lt → cmp a c = .lt)
    {as bs cs : List α} (h₁ : cmpLex cmp as bs = .lt)
    (h₂ : cmpLex cmp bs cs = .lt) : cmpLex cmp as cs = .lt := by
  induction as generalizing bs cs with
  | nil =>
    cases bs with
    | nil => simpa using h₂
    | cons b bs => cases cs with
      | nil => simp [cmpLex] at h₂
      | cons c cs => simp [cmpLex]
  | cons a as ih =>
    cases bs with
    | nil => simp [cmpLex] at h₁
    | cons b bs =>
      cases cs with
      | nil => simp [cmpLex] at h₂
      | cons c cs =>
        simp only [cmpLex, Ordering.then_eq_lt] at h₁ h₂ ⊢
        rcases h₁ with h₁ | ⟨h₁e, h₁r⟩
        · rcases h₂ with h₂ | ⟨h₂e, h₂r⟩
          · exact Or.inl (htrans h₁ h₂)
          · rw [heq] at h₂e
            subst h₂e
            exact Or.inl h₁
        · rw [heq] at h₁e
          subst h₁e
          rcases h₂ with h₂ | ⟨h₂e, h₂r⟩
          · exact Or.inl h₂
          · rw [heq] at h₂e
            subst h₂e
            exact Or.inr ⟨by rw [heq], ih h₁r h₂r⟩

theorem cmpStr_swap (a b : String) : (cmpStr a b).swap = cmpStr b a :=
  cmpLex_swap cmpLin (fun x y => cmpLin_swap x y) a.data b.data

theorem cmpStr_eq_iff (a b : String) : cmpStr a b = .eq ↔ a = b := by
  unfold cmpStr
  rw [cmpLex_eq_iff cmpLin (fun x y => cmpLin_eq_iff x y)]
  exact ⟨fun h => String.ext h, fun h => by rw [h]⟩

theorem cmpStr_trans {a b c : String} (h₁ : cmpStr a b = .lt)
    (h₂ : cmpStr b c = .lt) : cmpStr a c = .lt :=
  cmpLex_trans cmpLin (fun x y => cmpLin_eq_iff x y)
    (fun hx hy => cmpLin_trans hx hy) h₁ h₂

theorem cmpSeg_swap (a b : Seg) : (cmpSeg a b).swap = cmpSeg b a := by
  cases a <;> cases b <;> simp only [cmpSeg] <;>
    first | rfl | exact cmpLin_swap _ _ | exact cmpStr_swap _ _

theorem cmpSeg_eq_iff (a b : Seg) : cmpSeg a b = .eq ↔ a = b := by
  cases a <;> cases b <;> simp [cmpSeg, cmpLin_eq_iff, cmpStr_eq_iff]

theorem cmpSeg_trans {a b c : Seg} (h₁ : cmpSeg a b = .lt)
    (h₂ : cmpSeg b c = .lt) : cmpSeg a c = .lt := by
  cases a <;> cases b <;> cases c <;> simp_all [cmpSeg] <;>
    first
      | exact cmpLin_trans h₁ h₂
      | exact cmpStr_trans h₁ h₂

theorem cmpSegs_swap (as bs : List Seg) :
    (cmpSegs as bs).swap = cmpSegs bs as :=
  cmpLex_swap cmpSeg cmpSeg_swap as bs

theorem cmpSegs_eq_iff (as bs : List Seg) :
    cmpSegs as bs = .eq ↔ as = bs :=
  cmpLex_eq_iff cmpSeg cmpSeg_eq_iff as bs

theorem cmpSegs_trans {as bs cs : List Seg} (h₁ : cmpSegs as bs = .lt)
    (h₂ : cmpSegs bs cs = .lt) : cmpSegs as cs = .lt :=
  cmpLex_trans cmpSeg cmpSeg_eq_iff (fun hx hy => cmpSeg_trans hx hy) h₁ h₂

/-! ### The version comparator is a total order (C3) -/

theorem vercmp_swap (a b : Version) : (vercmp a b).swap = vercmp b a := by
  simp [vercmp, Ordering.then_swap, cmpLin_swap, cmpSegs_swap]

theorem vercmp_eq_iff (a b : Version) : vercmp a b = .eq ↔ a = b := by
  simp only [vercmp, Ordering.then_eq_eq, cmpLin_eq_iff, cmpSegs_eq_iff]
  constructor
  · rintro ⟨h₁, h₂, h₃⟩
    cases a; cases b; simp_all
  · rintro rfl; simp

theorem vercmp_trans {a b c : Version} (h₁ : vercmp a b = .lt)
    (h₂ : vercmp b c = .lt) : vercmp a c = .lt := by
  simp only [vercmp, Ordering.then_eq_lt, cmpLin_eq_iff, cmpSegs_eq_iff,
    cmpLin_lt_iff] at h₁ h₂ ⊢
  rcases h₁ with h₁ | ⟨h₁e, h₁r⟩
  · rcases h₂ with h₂ | ⟨h₂e, h₂r⟩
    · exact Or.inl (lt_trans h₁ h₂)
    · rw [h₂e] at h₁; exact Or.inl h₁
  · rw [h₁e]
    rcases h₂ with h₂ | ⟨h₂e, h₂r⟩
    · exact Or.inl h₂
    · refine Or.inr ⟨h₂e, ?_⟩
      rcases h₁r with h₁r | ⟨h₁u, h₁rel⟩
      · rcases h₂r with h₂r | ⟨h₂u, h₂rel⟩
        · exact Or.inl (cmpSegs_trans h₁r h₂r)
        · rw [h₂u] at h₁r; exact Or.inl h₁r
      · rw [h₁u]
        rcases h₂r with h₂r | ⟨h₂u, h₂rel⟩
        · exact Or.inl h₂r
        · exact Or.inr ⟨h₂u, cmpSegs_trans h₁rel h₂rel⟩

/-- C3: `VersionComparator.compare` is a total order on versions: for all
versions `a` and `b`, exactly one of Less, Equal, Greater holds;
`compare a b` is the inverse of `compare b a` (antisymmetry); and the order
is transitive. -/
theorem vercmp_total_order (a b c : Version) :
    ((vercmp a b = .lt ∧ vercmp a b ≠ .eq ∧ vercmp a b ≠ .gt) ∨
     (vercmp a b = .eq ∧ vercmp a b ≠ .lt ∧ vercmp a b ≠ .gt) ∨
     (vercmp a b = .gt ∧ vercmp a b ≠ .lt ∧ vercmp a b ≠ .eq)) ∧
    vercmp b a = (vercmp a b).swap ∧
    (vercmp a b = .eq ↔ a = b) ∧
    (vercmp a b = .lt → vercmp b c = .lt → vercmp a c = .lt) ∧
    (vercmp a b = .gt → vercmp b c = .gt → vercmp a c = .gt) := by
  refine ⟨?_, (vercmp_swap a b).symm, vercmp_eq_iff a b, vercmp_trans, ?_⟩
  · cases h : vercmp a b
    · exact Or.inl ⟨rfl, by simp, by simp⟩
    · exact Or.inr (Or.inl ⟨rfl, by simp, by simp⟩)
    · exact Or.inr (Or.inr ⟨rfl, by simp, by simp⟩)
  · intro h₁ h₂
    have s₁ : vercmp b a = .lt := by
      rw [← vercmp_swap a b, h₁]; rfl
    have s₂ : vercmp c b = .lt := by
      rw [← vercmp_swap b c, h₂]; rfl
    have := vercmp_trans s₂ s₁
    rw [← vercmp_swap a c] at this
    cases h : vercmp a c <;> simp [h, Ordering.swap] at this ⊢

/-- Closed witness for C3 at concrete versions. -/
theorem vercmp_total_order_witness :
    (vercmp ⟨0, [.num 1], []⟩ ⟨0, [.num 2], []⟩ = .eq ↔
      (⟨0, [.num 1], []⟩ : Version) = ⟨0, [.num 2], []⟩) ∧
    (vercmp ⟨0, [.num 1], []⟩ ⟨0, [.num 2], []⟩ = .lt →
      vercmp ⟨0, [.num 2], []⟩ ⟨0, [.num 3], []⟩ = .lt →
      vercmp ⟨0, [.num 1], []⟩ ⟨0, [.num 3], []⟩ = .lt) := by
  have h := vercmp_total_order ⟨0, [.num 1], []⟩ ⟨0, [.num 2], []⟩
    ⟨0, [.num 3], []⟩
  exact ⟨h.2.2.1, h.2.2.2.1⟩

/-! ### Candidate selection (C5) -/

theorem candCmp_trans {a b c : Package} (h₁ : candCmp a b = .lt)
    (h₂ : candCmp b c = .lt) : candCmp a c = .lt := by
  simp only [candCmp, Ordering.then_eq_lt, cmpLin_eq_iff, cmpLin_lt_iff,
    vercmp_eq_iff, cmpStr_eq_iff] at h₁ h₂ ⊢
  rcases h₁ with h₁ | ⟨h₁e, h₁r⟩
  · rcases h₂ with h₂ | ⟨h₂e, h₂r⟩
    · exact Or.inl (lt_trans h₁ h₂)
    · rw [h₂e] at h₁; exact Or.inl h₁
  · rw [h₁e]
    rcases h₂ with h₂ | ⟨h₂e, h₂r⟩
    · exact Or.inl h₂
    · refine Or.inr ⟨h₂e, ?_⟩
      rcases h₁r with h₁r | ⟨h₁v, h₁n⟩
      · rcases h₂r with h₂r | ⟨h₂v, h₂n⟩
        · exact Or.inl (vercmp_trans h₂r h₁r)
        · rw [h₂v]; exact Or.inl h₁r
      · rcases h₂r with h₂r | ⟨h₂v, h₂n⟩
        · rw [← h₁v]; exact Or.inl h₂r
        · exact Or.inr ⟨h₂v.trans h₁v, cmpStr_trans h₁n h₂n⟩

theorem candCmp_refl (a : Package) : candCmp a a = .eq := by
  simp [candCmp, Ordering.then_eq_eq, cmpLin_eq_iff, vercmp_eq_iff,
    cmpStr_eq_iff]

theorem candCmp_swap (a b : Package) : (candCmp a b).swap = candCmp b a := by
  simp [candCmp, Ordering.then_swap, cmpLin_swap, vercmp_swap, cmpStr_swap]

theorem candCmp_eq_congr {x p : Package} (h : candCmp x p = .eq)
    (r : Package) : candCmp p r = candCmp x r := by
  simp only [candCmp, Ordering.then_eq_eq, cmpLin_eq_iff, vercmp_eq_iff,
    cmpStr_eq_iff] at h
  obtain ⟨hk, hv, hn⟩ := h
  simp [candCmp, hk, hv, hn]

theorem candCmp_gt_iff {a b : Package} :
    candCmp a b = .gt ↔ candCmp b a = .lt := by
  constructor
  · intro h
    have := candCmp_swap a b
    rw [h] at this
    exact this.symm
  · intro h
    have := candCmp_swap b a
    rw [h] at this
    cases hab : candCmp a b <;> rw [hab] at this <;>
      simp [Ordering.swap] at this ⊢

theorem candCmp_rank_lt {a b : Package}
    (h : kindRank a.kind < kindRank b.kind) : candCmp a b = .lt := by
  simp only [candCmp, Ordering.then_eq_lt, cmpLin_lt_iff]
  exact Or.inl h

theorem candCmp_ver_lt {a b : Package}
    (hk : kindRank a.kind = kindRank b.kind)
    (hv : vercmp b.version a.version = .lt) : candCmp a b = .lt := by
  simp only [candCmp, Ordering.then_eq_lt, cmpLin_eq_iff]
  exact Or.inr ⟨hk, Or.inl hv⟩

theorem candCmp_name_lt {a b : Package}
    (hk : kindRank a.kind = kindRank b.kind) (hv : b.version = a.version)
    (hn : cmpStr a.name b.name = .lt) : candCmp a b = .lt := by
  simp only [candCmp, Ordering.then_eq_lt, cmpLin_eq_iff, vercmp_eq_iff]
  exact Or.inr ⟨hk, Or.inr ⟨hv, hn⟩⟩

theorem pickBest_mem (l : List Package) (p : Package) :
    l.foldl (fun best q => if candCmp q best = .lt then q else best) p ∈
      p :: l := by
  induction l generalizing p with
  | nil => simp
  | cons x xs ih =>
    simp only [List.foldl_cons]
    by_cases h : candCmp x p = .lt
    · simp only [h, if_pos rfl]
      have := ih x
      simp only [List.mem_cons] at this ⊢
      tauto
    · simp only [if_neg h]
      have := ih p
      simp only [List.mem_cons] at this ⊢
      tauto

theorem pickBest_min (l : List Package) (p : Package) :
    ∀ q ∈ p :: l, candCmp q
      (l.foldl (fun best r => if candCmp r best = .lt then r else best) p) ≠
        .lt := by
  induction l generalizing p with
  | nil =>
    intro q hq
    simp only [List.mem_cons, List.not_mem_nil, or_false] at hq
    subst hq
    simp [candCmp_refl]
  | cons x xs ih =>
    intro q hq
    simp only [List.foldl_cons]
    rcases List.mem_cons.mp hq with hqp | hq₂
    · subst hqp
      by_cases h : candCmp x q = .lt
      · simp only [h, if_pos rfl]
        intro hqr
        exact ih x x (by simp) (candCmp_trans h hqr)
      · simp only [if_neg h]
        exact ih q q (by simp)
    · by_cases h : candCmp x p = .lt
      · simp only [h, if_pos rfl]
        exact ih x q hq₂
      · simp only [if_neg h]
        rcases List.mem_cons.mp hq₂ with hqx | hqxs
        · subst hqx
          intro hqr
          cases hxp : candCmp q p with
          | lt => exact h hxp
          | eq =>
            exact ih p p (by simp) (by rw [candCmp_eq_congr hxp]; exact hqr)
          | gt =>
            exact ih p p (by simp)
              (candCmp_trans (candCmp_gt_iff.mp hxp) hqr)
        · exact ih p q (by simp [hqxs])

/-- C5: `best_candidate` prefers a satisfying Installed candidate, then
BinaryRepo over SourceRepo, then the highest satisfying version with ties
broken by source-kind priority and lexical name order, and it returns
`Unresolvable` carrying the requesting package's name exactly when no
candidate satisfies the constraint. -/
theorem bestCandidate_policy (cat : Catalog) (requester name : String)
    (c : Option Constraint) :
    (bestCandidate cat requester name c = .error (.unresolvable requester) ↔
      satCandidates cat name c = []) ∧
    ∀ p, bestCandidate cat requester name c = .ok p →
      p ∈ satCandidates cat name c ∧
      (∀ q ∈ satCandidates cat name c, candCmp q p ≠ .lt) ∧
      ((∃ q ∈ satCandidates cat name c, q.kind = .installed) →
        p.kind = .installed) ∧
      ((∀ q ∈ satCandidates cat name c, q.kind ≠ .installed) →
        (∃ q ∈ satCandidates cat name c, q.kind = .binaryRepo) →
        p.kind = .binaryRepo) ∧
      (∀ q ∈ satCandidates cat name c, q.kind = p.kind →
        vercmp p.version q.version ≠ .lt) ∧
      (∀ q ∈ satCandidates cat name c, q.kind = p.kind →
        q.version = p.version → cmpStr q.name p.name ≠ .lt) := by
  cases hsat : satCandidates cat name c with
  | nil =>
    refine ⟨by simp [bestCandidate, hsat], ?_⟩
    intro p hp
    simp [bestCandidate, hsat] at hp
  | cons p₀ ps =>
    refine ⟨by simp [bestCandidate, hsat], ?_⟩
    intro p hp
    simp only [bestCandidate, hsat, Except.ok.injEq] at hp
    have hmem := pickBest_mem ps p₀
    have hmin := pickBest_min ps p₀
    rw [hp] at hmem hmin
    refine ⟨hmem, hmin, ?_, ?_, ?_, ?_⟩
    · rintro ⟨q, hq, hqk⟩
      cases hpk : p.kind with
      | installed => rfl
      | binaryRepo =>
        exact absurd (candCmp_rank_lt (by rw [hqk, hpk]; decide))
          (hmin q hq)
      | sourceRepo =>
        exact absurd (candCmp_rank_lt (by rw [hqk, hpk]; decide))
          (hmin q hq)
    · rintro hnoinst ⟨q, hq, hqk⟩
      cases hpk : p.kind with
      | installed => exact absurd hpk (hnoinst p hmem)
      | binaryRepo => rfl
      | sourceRepo =>
        exact absurd (candCmp_rank_lt (by rw [hqk, hpk]; decide))
          (hmin q hq)
    · intro q hq hk hcontra
      exact hmin q hq (candCmp_ver_lt (congrArg kindRank hk) hcontra)
    · intro q hq hk hv hn
      exact hmin q hq
        (candCmp_name_lt (congrArg kindRank hk) hv.symm hn)

/-- Closed witness for C5: on a catalog with a satisfying installed,
binary and source candidate, the installed one is selected even though its
version is lowest. -/
theorem bestCandidate_policy_witness :
    bestCandidate catalogC5 "app" "zlib" none = .ok zlibInstalled ∧
    zlibInstalled.kind = .installed := by
  have h := bestCandidate_policy catalogC5 "app" "zlib" none
  have hok : bestCandidate catalogC5 "app" "zlib" none =
      .ok zlibInstalled := by rfl
  refine ⟨hok, (h.2 zlibInstalled hok).2.2.1 ⟨zlibInstalled, ?_, rfl⟩⟩
  decide

/-! ### Cycle extraction from a stalled node set -/

theorem chainB_iff (g : DepGraph) :
    ∀ c : List String,
      (chainB g c = true ↔ List.Chain' (fun a b => b ∈ depsOf g a) c) := by
  intro c
  induction c with
  | nil => simp [chainB]
  | cons a c ih =>
    cases c with
    | nil => simp [chainB]
    | cons b c2 =>
      rw [List.chain'_cons, ← ih]
      constructor
      · intro h
        have h' : ((depsOf g a).contains b && chainB g (b :: c2)) = true := h
        rw [Bool.and_eq_true] at h'
        exact ⟨List.elem_iff.mp h'.1, h'.2⟩
      · rintro ⟨h1, h2⟩
        show ((depsOf g a).contains b && chainB g (b :: c2)) = true
        rw [Bool.and_eq_true]
        exact ⟨List.elem_iff.mpr h1, h2⟩

theorem readyIn_false {g : DepGraph} {placed : List String} {n : String}
    (h : readyIn g placed n = false) :
    ∃ d ∈ depsOf g n, d ∈ g.nodes ∧ d ∉ placed := by
  unfold readyIn at h
  obtain ⟨d, hd, hprop⟩ := List.all_eq_false.mp h
  refine ⟨d, hd, ?_⟩
  simp at hprop
  exact hprop

theorem readyIn_true {g : DepGraph} {placed : List String} {n : String}
    (h : readyIn g placed n = true) :
    ∀ d ∈ depsOf g n, d ∈ g.nodes → d ∈ placed := by
  intro d hd hdn
  unfold readyIn at h
  have := List.all_eq_true.mp h d hd
  simp at this
  exact this.resolve_left (by simpa using hdn)

theorem dropWhile_until_mem {d : String} :
    ∀ (l : List String), d ∈ l →
      ∃ t, l.dropWhile (fun x => !(x == d)) = d :: t ∧ (d :: t) <:+ l := by
  intro l hd
  induction l with
  | nil => simp at hd
  | cons x xs ih =>
    by_cases hx : x = d
    · subst hx
      refine ⟨xs, ?_, List.suffix_refl _⟩
      simp [List.dropWhile]
    · rcases List.mem_cons.mp hd with h | h
      · exact absurd h.symm hx
      · obtain ⟨t, ht, hsuf⟩ := ih h
        refine ⟨t, ?_, hsuf.trans (List.suffix_cons x xs)⟩
        have hxd : (x == d) = false := by
          simp [hx]
        simp only [List.dropWhile, hxd, Bool.not_false]
        exact ht

theorem walkCycle_spec (g : DepGraph) (s : List String)
    (hdep : ∀ n ∈ s, ∃ d ∈ depsOf g n, d ∈ s) :
    ∀ (fuel : Nat) (path : List String), path ≠ [] → path.Nodup →
      (∀ x ∈ path, x ∈ s) →
      path.Chain' (fun a b => b ∈ depsOf g a) →
      s.length + 1 ≤ fuel + path.length →
      (walkCycle g s fuel path ≠ [] ∧
       (∀ x ∈ walkCycle g s fuel path, x ∈ s) ∧
       (walkCycle g s fuel path).Chain' (fun a b => b ∈ depsOf g a) ∧
       closesBack g (walkCycle g s fuel path) = true) := by
  intro fuel
  induction fuel with
  | zero =>
    intro path hne hnd hsub hch hfuel
    exfalso
    have hlen := (List.subperm_of_subset hnd hsub).length_le
    simp at hfuel
    omega
  | succ fuel ih =>
    intro path hne hnd hsub hch hfuel
    have hlast : path.getLast? = some (path.getLast hne) :=
      List.getLast?_eq_getLast path hne
    have hlmem : path.getLast hne ∈ s := hsub _ (List.getLast_mem hne)
    obtain ⟨d₀, hd₀, hd₀s⟩ := hdep _ hlmem
    have hfind : ∃ d, pickDep g s (path.getLast hne) = some d := by
      have hsome : (pickDep g s (path.getLast hne)).isSome := by
        unfold pickDep
        rw [List.find?_isSome]
        exact ⟨d₀, hd₀, List.elem_iff.mpr hd₀s⟩
      exact Option.isSome_iff_exists.mp hsome
    obtain ⟨d, hd⟩ := hfind
    unfold pickDep at hd
    have hddep : d ∈ depsOf g (path.getLast hne) :=
      List.mem_of_find?_eq_some hd
    have hps := List.find?_some hd
    have hds : d ∈ s := by simpa using hps
    have hd : pickDep g s (path.getLast hne) = some d := hd
    have hstep : walkCycle g s (fuel + 1) path =
        (if d ∈ path then path.dropWhile (fun x => !(x == d))
         else walkCycle g s fuel (path ++ [d])) := by
      rw [show walkCycle g s (fuel + 1) path =
        (match path.getLast? with
        | none => []
        | some n =>
          match pickDep g s n with
          | none => []
          | some d =>
            if d ∈ path then path.dropWhile (fun x => !(x == d))
            else walkCycle g s fuel (path ++ [d])) from rfl]
      rw [hlast]
      dsimp only
      rw [hd]
    rw [hstep]
    by_cases hdp : d ∈ path
    · rw [if_pos hdp]
      obtain ⟨t, ht, hsuf⟩ := dropWhile_until_mem path hdp
      rw [ht]
      refine ⟨by simp, ?_, hch.suffix hsuf, ?_⟩
      · intro x hx
        exact hsub x (hsuf.subset hx)
      · unfold closesBack
        obtain ⟨pre, hpre⟩ := hsuf
        have hplast : path.getLast? = (d :: t).getLast? := by
          conv_lhs => rw [← hpre]
          rw [List.getLast?_append_of_ne_nil pre (by simp)]
        have hlast2 : (d :: t).getLast? = some (path.getLast hne) := by
          rw [← hplast]; exact hlast
        rw [hlast2]
        simp only [List.head?_cons]
        exact List.elem_iff.mpr hddep
    · rw [if_neg hdp]
      refine ih (path ++ [d]) (by simp) ?_ ?_ ?_ ?_
      · rw [List.nodup_append]
        refine ⟨hnd, List.nodup_singleton d, ?_⟩
        intro x hx hxd
        simp at hxd
        subst hxd
        exact hdp hx
      · intro x hx
        rcases List.mem_append.mp hx with h | h
        · exact hsub x h
        · simp at h
          subst h
          exact hds
      · rw [List.chain'_append]
        refine ⟨hch, List.chain'_singleton d, ?_⟩
        intro x hx y hy
        simp at hy
        subst hy
        rw [hlast] at hx
        injection hx with hx
        subst hx
        exact hddep
      · simp
        omega

theorem extractCycle_spec (g : DepGraph) (s : List String) (hne : s ≠ [])
    (hsub : ∀ n ∈ s, n ∈ g.nodes)
    (hdep : ∀ n ∈ s, ∃ d ∈ depsOf g n, d ∈ s) :
    IsCycleIn g (extractCycle g s) := by
  cases s with
  | nil => simp at hne
  | cons x rest =>
    have h := walkCycle_spec g (x :: rest) hdep (x :: rest).length [x]
      (by simp) (by simp) ?_ (List.chain'_singleton x) (by simp)
    · exact ⟨h.1, fun n hn => hsub n (h.2.1 n hn),
        (chainB_iff g _).mpr h.2.2.1, h.2.2.2⟩
    · intro y hy
      simp at hy
      simp [hy]

theorem length_filter_not_lt (l : List String) (p : String → Bool)
    (h : (l.filter p).length ≠ 0) :
    (l.filter (fun x => !(p x))).length < l.length := by
  induction l with
  | nil => simp at h
  | cons x xs ih =>
    by_cases hx : p x
    · simp only [List.filter_cons, hx, Bool.not_true, if_pos,
        List.length_cons, Bool.false_eq_true, if_false]
      exact Nat.lt_succ_of_le (List.length_filter_le _ xs)
    · have hx' : p x = false := by simpa using hx
      simp only [List.filter_cons, hx', Bool.not_false, if_pos,
        List.length_cons, Bool.false_eq_true, if_false] at h ⊢
      exact Nat.succ_lt_succ (ih h)

theorem kahnAux_error (g : DepGraph) :
    ∀ (N : Nat) (placed remaining : List String), remaining.length ≤ N →
      (∀ n ∈ remaining, n ∈ g.nodes) →
      (∀ n ∈ g.nodes, n ∉ placed → n ∈ remaining) →
      ∀ e, kahnAux g N placed remaining = .error e → IsCycleIn g e := by
  intro N
  induction N with
  | zero =>
    intro placed remaining hlen hsub hcomp e he
    simp [kahnAux] at he
  | succ N ih =>
    intro placed remaining hlen hsub hcomp e he
    simp only [kahnAux] at he
    by_cases hrem : remaining.length = 0
    · rw [if_pos hrem] at he
      cases he
    · rw [if_neg hrem] at he
      by_cases htier : (remaining.filter (readyIn g placed)).length = 0
      · rw [if_pos htier] at he
        injection he with he'
        subst he'
        have hstall : ∀ n ∈ remaining, ∃ d ∈ depsOf g n, d ∈ remaining := by
          intro n hn
          have hnr : readyIn g placed n = false := by
            have h0 := List.filter_eq_nil_iff.mp
              (List.length_eq_zero.mp htier)
            have := h0 n hn
            simpa using this
          obtain ⟨d, hd, hdn, hdp⟩ := readyIn_false hnr
          exact ⟨d, hd, hcomp d hdn hdp⟩
        exact extractCycle_spec g remaining
          (by intro h0; rw [h0] at hrem; simp at hrem) hsub hstall
      · rw [if_neg htier] at he
        cases hrec : kahnAux g N
            (placed ++ remaining.filter (readyIn g placed))
            (remaining.filter (fun n => !(readyIn g placed n))) with
        | error e2 =>
          rw [hrec] at he
          injection he with he'
          subst he'
          refine ih (placed ++ remaining.filter (readyIn g placed)) _
            ?_ ?_ ?_ e2 hrec
          · have hlt := length_filter_not_lt remaining
              (readyIn g placed) htier
            omega
          · intro n hn
            exact hsub n (List.mem_of_mem_filter hn)
          · intro n hn hnp
            have hnp1 : n ∉ placed := fun h =>
              hnp (List.mem_append.mpr (Or.inl h))
            have hnrem : n ∈ remaining := hcomp n hn hnp1
            have hnready : readyIn g placed n = false := by
              by_contra hb
              have hb' : readyIn g placed n = true := by simpa using hb
              exact hnp (List.mem_append.mpr
                (Or.inr (List.mem_filter.mpr ⟨hnrem, hb'⟩)))
            exact List.mem_filter.mpr ⟨hnrem, by simp [hnready]⟩
        | ok tiers =>
          rw [hrec] at he
          cases he

theorem kahnAux_ok (g : DepGraph) :
    ∀ (N : Nat) (placed remaining : List String), remaining.length ≤ N →
      remaining.Nodup →
      ∀ tiers, kahnAux g N placed remaining = .ok tiers →
      ((∀ n ∈ remaining, n ∈ tiers.flatten) ∧
       (∀ n ∈ tiers.flatten, n ∈ remaining) ∧
       tiers.flatten.Nodup ∧
       (∀ (i : Nat) (hi : i < tiers.length), ∀ x ∈ tiers[i],
         ∀ d ∈ depsOf g x, d ∈ g.nodes →
           d ∈ placed ∨ ∃ j, ∃ hj : j < tiers.length, j < i ∧
             d ∈ tiers[j])) := by
  intro N
  induction N with
  | zero =>
    intro placed remaining hlen hnd tiers ht
    have hrem : remaining.length = 0 := Nat.le_zero.mp hlen
    simp only [kahnAux] at ht
    injection ht with ht'
    subst ht'
    have hremnil : remaining = [] := List.length_eq_zero.mp hrem
    subst hremnil
    refine ⟨by simp, by simp, by simp, ?_⟩
    intro i hi
    simp at hi
  | succ N ih =>
    intro placed remaining hlen hnd tiers ht
    simp only [kahnAux] at ht
    by_cases hrem : remaining.length = 0
    · rw [if_pos hrem] at ht
      injection ht with ht'
      subst ht'
      have hremnil : remaining = [] := List.length_eq_zero.mp hrem
      subst hremnil
      refine ⟨by simp, by simp, by simp, ?_⟩
      intro i hi
      simp at hi
    · rw [if_neg hrem] at ht
      by_cases htier : (remaining.filter (readyIn g placed)).length = 0
      · rw [if_pos htier] at ht
        cases ht
      · rw [if_neg htier] at ht
        cases hrec : kahnAux g N
            (placed ++ remaining.filter (readyIn g placed))
            (remaining.filter (fun n => !(readyIn g placed n))) with
        | error e2 => rw [hrec] at ht; cases ht
        | ok tiers2 =>
          rw [hrec] at ht
          injection ht with ht'
          subst ht'
          obtain ⟨ihA, ihB, ihC, ihD⟩ := ih
            (placed ++ remaining.filter (readyIn g placed))
            (remaining.filter (fun n => !(readyIn g placed n)))
            (by
              have := length_filter_not_lt remaining (readyIn g placed)
                htier
              omega)
            (hnd.filter _)
            tiers2 hrec
          refine ⟨?_, ?_, ?_, ?_⟩
          · intro n hn
            simp only [List.flatten_cons, List.mem_append]
            by_cases hr : readyIn g placed n = true
            · exact Or.inl (List.mem_filter.mpr ⟨hn, hr⟩)
            · have hr' : readyIn g placed n = false := by simpa using hr
              exact Or.inr (ihA n (List.mem_filter.mpr ⟨hn, by
                simp [hr']⟩))
          · intro n hn
            simp only [List.flatten_cons, List.mem_append] at hn
            rcases hn with hn | hn
            · exact List.mem_of_mem_filter hn
            · exact List.mem_of_mem_filter (ihB n hn)
          · simp only [List.flatten_cons]
            rw [List.nodup_append]
            refine ⟨hnd.filter _, ihC, ?_⟩
            intro x hx hx2
            have h1 : readyIn g placed x = true := (List.mem_filter.mp hx).2
            have h2 := (List.mem_filter.mp (ihB x hx2)).2
            simp [h1] at h2
          · intro i hi x hx d hd hdn
            cases i with
            | zero =>
              simp only [List.getElem_cons_zero] at hx
              have hr : readyIn g placed x = true :=
                (List.mem_filter.mp hx).2
              exact Or.inl (readyIn_true hr d hd hdn)
            | succ i =>
              simp only [List.getElem_cons_succ] at hx
              have hi2 : i < tiers2.length := by simpa using hi
              rcases ihD i hi2 x hx d hd hdn with hp | ⟨j, hj, hji, hdj⟩
              · rcases List.mem_append.mp hp with hp | hp
                · exact Or.inl hp
                · exact Or.inr ⟨0, by simp, Nat.succ_pos i, by
                    simpa using hp⟩
              · exact Or.inr ⟨j + 1, by simpa using hj,
                  Nat.succ_lt_succ hji, by simpa using hdj⟩

/-! ### Sorting and dedup auxiliary lemmas -/

theorem insertSorted_perm (a : String) (l : List String) :
    (insertSorted a l).Perm (a :: l) := by
  induction l with
  | nil => simp [insertSorted]
  | cons b bs ih =>
    unfold insertSorted
    by_cases h : cmpStr a b = .gt
    · rw [if_pos h]
      exact (ih.cons b).trans (List.Perm.swap a b bs)
    · rw [if_neg h]

theorem sortNames_perm (l : List String) : (sortNames l).Perm l := by
  induction l with
  | nil => simp [sortNames]
  | cons a as ih =>
    unfold sortNames
    exact (insertSorted_perm a (sortNames as)).trans (ih.cons a)

theorem mem_sortNames {l : List String} {n : String} :
    n ∈ sortNames l ↔ n ∈ l :=
  (sortNames_perm l).mem_iff

theorem sortNames_nodup {l : List String} (h : l.Nodup) :
    (sortNames l).Nodup :=
  ((sortNames_perm l).nodup_iff).mpr h

theorem mem_dedupNames {l : List String} {n : String} :
    n ∈ dedupNames l ↔ n ∈ l := by
  induction l with
  | nil => simp [dedupNames]
  | cons a as ih =>
    unfold dedupNames
    by_cases h : a ∈ as
    · rw [if_pos h, ih]
      constructor
      · intro hn; exact List.mem_cons_of_mem a hn
      · intro hn
        rcases List.mem_cons.mp hn with rfl | hn
        · exact h
        · exact hn
    · rw [if_neg h]
      simp [ih]

theorem dedupNames_nodup (l : List String) : (dedupNames l).Nodup := by
  induction l with
  | nil => simp [dedupNames]
  | cons a as ih =>
    unfold dedupNames
    by_cases h : a ∈ as
    · rw [if_pos h]; exact ih
    · rw [if_neg h]
      exact List.Nodup.cons (fun hmem => h (mem_dedupNames.mp hmem)) ih

/-! ### Tier positions in the flattened plan -/

theorem indexOf_flatten_lt :
    ∀ (tiers : List (List String)) (i j : Nat) (hi : i < tiers.length)
      (hj : j < tiers.length), j < i → tiers.flatten.Nodup →
      ∀ x d, x ∈ tiers[i] → d ∈ tiers[j] →
        tiers.flatten.indexOf d < tiers.flatten.indexOf x := by
  intro tiers
  induction tiers with
  | nil => intro i j hi; simp at hi
  | cons t rest ih =>
    intro i j hi hj hij hnd x d hx hd
    simp only [List.flatten_cons] at hnd ⊢
    cases j with
    | zero =>
      simp only [List.getElem_cons_zero] at hd
      cases i with
      | zero => omega
      | succ i =>
        simp only [List.getElem_cons_succ] at hx
        have hi2 : i < rest.length := by
          simp only [List.length_cons] at hi; omega
        have hxflat : x ∈ rest.flatten :=
          List.mem_flatten.mpr ⟨rest[i], List.getElem_mem hi2, hx⟩
        have hxnot : x ∉ t :=
          fun hmem => (List.disjoint_of_nodup_append hnd) hmem hxflat
        rw [List.indexOf_append_of_mem hd,
            List.indexOf_append_of_not_mem hxnot]
        have := List.indexOf_lt_length.mpr hd
        omega
    | succ j =>
      cases i with
      | zero => omega
      | succ i =>
        simp only [List.getElem_cons_succ] at hx hd
        have hi2 : i < rest.length := by
          simp only [List.length_cons] at hi; omega
        have hj2 : j < rest.length := by
          simp only [List.length_cons] at hj; omega
        have hdflat : d ∈ rest.flatten :=
          List.mem_flatten.mpr ⟨rest[j], List.getElem_mem hj2, hd⟩
        have hxflat : x ∈ rest.flatten :=
          List.mem_flatten.mpr ⟨rest[i], List.getElem_mem hi2, hx⟩
        have hdnot : d ∉ t :=
          fun hmem => (List.disjoint_of_nodup_append hnd) hmem hdflat
        have hxnot : x ∉ t :=
          fun hmem => (List.disjoint_of_nodup_append hnd) hmem hxflat
        rw [List.indexOf_append_of_not_mem hdnot,
            List.indexOf_append_of_not_mem hxnot]
        have hrest := ih i j hi2 hj2 (by omega)
          (List.Nodup.of_append_right hnd) x d hx hd
        omega

/-! ### Schedule-level facts -/

theorem schedule_error_cycle {g : DepGraph} {e : List String}
    (h : schedule g = .error e) : IsCycleIn g e := by
  unfold schedule at h
  refine kahnAux_error g (sortNames (dedupNames g.nodes)).length []
    (sortNames (dedupNames g.nodes)) le_rfl ?_ ?_ e h
  · intro n hn
    exact mem_dedupNames.mp (mem_sortNames.mp hn)
  · intro n hn _
    exact mem_sortNames.mpr (mem_dedupNames.mpr hn)

theorem schedule_ok_props {g : DepGraph} {plan : List (List String)}
    (h : schedule g = .ok plan) :
    (∀ n, n ∈ g.nodes ↔ n ∈ plan.flatten) ∧
    plan.flatten.Nodup ∧
    (∀ (i : Nat) (hi : i < plan.length), ∀ x ∈ plan[i],
      ∀ d ∈ depsOf g x, d ∈ g.nodes →
        ∃ j, ∃ hj : j < plan.length, j < i ∧ d ∈ plan[j]) ∧
    (∀ x ∈ plan.flatten, ∀ d ∈ depsOf g x, d ∈ g.nodes →
      plan.flatten.indexOf d < plan.flatten.indexOf x) := by
  unfold schedule at h
  obtain ⟨hA, hB, hC, hD⟩ := kahnAux_ok g
    (sortNames (dedupNames g.nodes)).length []
    (sortNames (dedupNames g.nodes)) le_rfl
    (sortNames_nodup (dedupNames_nodup g.nodes)) plan h
  have hmemiff : ∀ n, n ∈ g.nodes ↔ n ∈ plan.flatten := by
    intro n
    constructor
    · intro hn
      exact hA n (mem_sortNames.mpr (mem_dedupNames.mpr hn))
    · intro hn
      exact mem_dedupNames.mp (mem_sortNames.mp (hB n hn))
  have htier : ∀ (i : Nat) (hi : i < plan.length), ∀ x ∈ plan[i],
      ∀ d ∈ depsOf g x, d ∈ g.nodes →
        ∃ j, ∃ hj : j < plan.length, j < i ∧ d ∈ plan[j] := by
    intro i hi x hx d hd hdn
    rcases hD i hi x hx d hd hdn with hfalse | hj
    · simp at hfalse
    · exact hj
  refine ⟨hmemiff, hC, htier, ?_⟩
  · intro x hx d hd hdn
    obtain ⟨tx, htx, hxtx⟩ := List.mem_flatten.mp hx
    obtain ⟨i, hi, hti⟩ := List.getElem_of_mem htx
    have hxi : x ∈ plan[i] := by rw [hti]; exact hxtx
    obtain ⟨j, hj, hji, hdj⟩ := htier i hi x hxi d hd hdn
    exact indexOf_flatten_lt plan i j hi hj hji hC x d hxi hdj

theorem chain_indexOf_le {g : DepGraph} {plan : List (List String)}
    (hpos : ∀ x ∈ plan.flatten, ∀ d ∈ depsOf g x, d ∈ g.nodes →
      plan.flatten.indexOf d < plan.flatten.indexOf x)
    (hmem : ∀ n, n ∈ g.nodes ↔ n ∈ plan.flatten) :
    ∀ (c : List String) (hne : c ≠ []), (∀ x ∈ c, x ∈ g.nodes) →
      c.Chain' (fun a b => b ∈ depsOf g a) →
      plan.flatten.indexOf (c.getLast hne) ≤
        plan.flatten.indexOf (c.head hne) := by
  intro c
  induction c with
  | nil => intro hne; simp at hne
  | cons a c2 ih =>
    intro hne hsub hch
    cases c2 with
    | nil => simp
    | cons b c3 =>
      have hR : b ∈ depsOf g a := (List.chain'_cons.mp hch).1
      have hrest := ih (by simp)
        (fun x hx => hsub x (List.mem_cons_of_mem a hx))
        (List.chain'_cons.mp hch).2
      have hbn : b ∈ g.nodes := hsub b (by simp)
      have han : a ∈ g.nodes := hsub a (by simp)
      have hlt : plan.flatten.indexOf b < plan.flatten.indexOf a :=
        hpos a ((hmem a).mp han) b hR hbn
      rw [List.getLast_cons (by simp), List.head_cons]
      have hhead : (b :: c3).head (by simp) = b := List.head_cons
      rw [hhead] at hrest
      omega

theorem schedule_ok_acyclic {g : DepGraph} {plan : List (List String)}
    (h : schedule g = .ok plan) : Acyclic g := by
  obtain ⟨hmem, hnd, htier, hpos⟩ := schedule_ok_props h
  intro c hc
  obtain ⟨hne, hsub, hchb, hclose⟩ := hc
  have hch := (chainB_iff g c).mp hchb
  have hhead : c.head? = some (c.head hne) := List.head?_eq_head hne
  have hlast : c.getLast? = some (c.getLast hne) :=
    List.getLast?_eq_getLast c hne
  unfold closesBack at hclose
  rw [hhead, hlast] at hclose
  have hedge : c.head hne ∈ depsOf g (c.getLast hne) := by
    simpa using hclose
  have hlastn : c.getLast hne ∈ g.nodes := hsub _ (List.getLast_mem hne)
  have hheadn : c.head hne ∈ g.nodes := hsub _ (List.head_mem hne)
  have hlt := hpos _ ((hmem _).mp hlastn) _ hedge hheadn
  have hle := chain_indexOf_le hpos hmem c hne hsub hch
  omega

/-- C1: for every acyclic dependency graph, `schedule` returns a build
plan whose flattened tiers contain every node exactly once and list every
package strictly after all of its in-graph dependencies, and every
package in tier `k` has all its in-graph dependencies in tiers with index
less than `k`. -/
theorem schedule_acyclic_plan (g : DepGraph) (hacy : Acyclic g) :
    ∃ plan, schedule g = .ok plan ∧
      (∀ n, n ∈ g.nodes ↔ n ∈ plan.flatten) ∧
      plan.flatten.Nodup ∧
      (∀ (i : Nat) (hi : i < plan.length), ∀ x ∈ plan[i],
        ∀ d ∈ depsOf g x, d ∈ g.nodes →
          ∃ j, ∃ hj : j < plan.length, j < i ∧ d ∈ plan[j]) ∧
      (∀ x ∈ plan.flatten, ∀ d ∈ depsOf g x, d ∈ g.nodes →
        plan.flatten.indexOf d < plan.flatten.indexOf x) := by
  cases hres : schedule g with
  | error e => exact absurd (schedule_error_cycle hres) (hacy e)
  | ok plan => exact ⟨plan, rfl, schedule_ok_props hres⟩

/-- Closed witness for C1 on a three-node chain. -/
theorem schedule_acyclic_plan_witness :
    Acyclic gLinear ∧
    schedule gLinear = .ok [["libA"], ["libB"], ["libC"]] ∧
    ∃ plan, schedule gLinear = .ok plan ∧
      (∀ n, n ∈ gLinear.nodes ↔ n ∈ plan.flatten) ∧
      plan.flatten.Nodup ∧
      (∀ (i : Nat) (hi : i < plan.length), ∀ x ∈ plan[i],
        ∀ d ∈ depsOf gLinear x, d ∈ gLinear.nodes →
          ∃ j, ∃ hj : j < plan.length, j < i ∧ d ∈ plan[j]) ∧
      (∀ x ∈ plan.flatten, ∀ d ∈ depsOf gLinear x, d ∈ gLinear.nodes →
        plan.flatten.indexOf d < plan.flatten.indexOf x) := by
  have hok : schedule gLinear = .ok [["libA"], ["libB"], ["libC"]] := by
    rfl
  have hacy : Acyclic gLinear := schedule_ok_acyclic hok
  exact ⟨hacy, hok, schedule_acyclic_plan gLinear hacy⟩

/-- C2: for every dependency graph that contains a cycle, `schedule`
returns a cycle error whose reported path is an ordered sequence of
package names in which each consecutive pair is a depends-on edge and the
walk returns to its starting package. -/
theorem schedule_cyclic_error (g : DepGraph)
    (hcyc : ∃ c, IsCycleIn g c) :
    ∃ path, schedule g = .error path ∧ IsCycleIn g path := by
  cases hres : schedule g with
  | error e => exact ⟨e, rfl, schedule_error_cycle hres⟩
  | ok plan =>
    obtain ⟨c, hc⟩ := hcyc
    exact absurd hc (schedule_ok_acyclic hres c)

/-- Closed witness for C2 on a two-node cycle. -/
theorem schedule_cyclic_error_witness :
    (∃ c, IsCycleIn gCyclic c) ∧
    (∃ path, schedule gCyclic = .error path ∧ IsCycleIn gCyclic path) := by
  have hcyc : ∃ c, IsCycleIn gCyclic c := ⟨["pkgX", "pkgY"], by decide⟩
  exact ⟨hcyc, schedule_cyclic_error gCyclic hcyc⟩

/-! ### Orchestrator result-map plumbing -/

theorem any_congr {p q : String → Bool} :
    ∀ l : List String, (∀ a ∈ l, p a = q a) → l.any p = l.any q := by
  intro l h
  induction l with
  | nil => simp
  | cons a l ih =>
    simp only [List.any_cons]
    rw [h a (by simp), ih (fun b hb => h b (by simp [hb]))]

theorem resultOf_cons (e : String × BuildResult)
    (m : List (String × BuildResult)) (q : String) :
    resultOf (e :: m) q =
      if e.fst == q then some e.snd else resultOf m q := by
  unfold resultOf
  cases hp : (e.fst == q) <;> simp [List.find?, hp]

theorem resultOf_append_some {m : List (String × BuildResult)}
    {q : String} {v : BuildResult} (l : List (String × BuildResult))
    (h : resultOf m q = some v) : resultOf (m ++ l) q = some v := by
  induction m with
  | nil => simp [resultOf] at h
  | cons e m ih =>
    rw [List.cons_append, resultOf_cons]
    rw [resultOf_cons] at h
    by_cases hp : (e.fst == q) = true
    · rw [if_pos hp] at h ⊢
      exact h
    · rw [if_neg hp] at h ⊢
      exact ih h

theorem resultOf_append_none {m : List (String × BuildResult)}
    {q : String} (l : List (String × BuildResult))
    (h : resultOf m q = none) : resultOf (m ++ l) q = resultOf l q := by
  induction m with
  | nil => simp
  | cons e m ih =>
    rw [List.cons_append, resultOf_cons]
    rw [resultOf_cons] at h
    by_cases hp : (e.fst == q) = true
    · rw [if_pos hp] at h
      simp at h
    · rw [if_neg hp] at h ⊢
      exact ih h

theorem resultOf_none_iff {m : List (String × BuildResult)} {q : String} :
    resultOf m q = none ↔ q ∉ m.map Prod.fst := by
  induction m with
  | nil => simp [resultOf]
  | cons e m ih =>
    rw [resultOf_cons]
    by_cases hp : (e.fst == q) = true
    · rw [if_pos hp]
      simp only [List.map_cons, List.mem_cons]
      have he : e.fst = q := by simpa using hp
      simp [he]
    · rw [if_neg hp]
      simp only [List.map_cons, List.mem_cons]
      have he : ¬ e.fst = q := by simpa using hp
      rw [ih]
      constructor
      · intro hq hor
        rcases hor with hq2 | hq2
        · exact he hq2.symm
        · exact hq hq2
      · intro hq hq2
        exact hq (Or.inr hq2)

theorem processPackage_fst (g : DepGraph) (skip action : String → Bool)
    (st : List (String × BuildResult) × List String) (p : String) :
    ∃ r, (processPackage g skip action st p).fst = st.fst ++ [(p, r)] := by
  unfold processPackage
  split
  · exact ⟨.blocked, rfl⟩
  · split
    · exact ⟨.skipped, rfl⟩
    · split
      · exact ⟨.succeeded, rfl⟩
      · exact ⟨.failed, rfl⟩

theorem processPackage_snd (g : DepGraph) (skip action : String → Bool)
    (st : List (String × BuildResult) × List String) (p : String) :
    (processPackage g skip action st p).snd = st.snd ∨
    (processPackage g skip action st p).snd = st.snd ++ [p] := by
  unfold processPackage
  split
  · exact Or.inl rfl
  · split
    · exact Or.inl rfl
    · split
      · exact Or.inr rfl
      · exact Or.inr rfl

theorem runFold_keys (g : DepGraph) (skip action : String → Bool) :
    ∀ (l : List String) (st : List (String × BuildResult) × List String),
      (l.foldl (processPackage g skip action) st).fst.map Prod.fst =
        st.fst.map Prod.fst ++ l := by
  intro l
  induction l with
  | nil => intro st; simp
  | cons x xs ih =>
    intro st
    simp only [List.foldl_cons]
    rw [ih]
    obtain ⟨r, hr⟩ := processPackage_fst g skip action st x
    rw [hr]
    simp

theorem runFold_mono (g : DepGraph) (skip action : String → Bool)
    {q : String} {v : BuildResult} :
    ∀ (l : List String) (st : List (String × BuildResult) × List String),
      resultOf st.fst q = some v →
      resultOf (l.foldl (processPackage g skip action) st).fst q =
        some v := by
  intro l
  induction l with
  | nil => intro st h; simpa using h
  | cons x xs ih =>
    intro st h
    simp only [List.foldl_cons]
    refine ih _ ?_
    obtain ⟨r, hr⟩ := processPackage_fst g skip action st x
    rw [hr]
    exact resultOf_append_some _ h

theorem runFold_log (g : DepGraph) (skip action : String → Bool) :
    ∀ (l : List String) (st : List (String × BuildResult) × List String),
      ∀ y ∈ (l.foldl (processPackage g skip action) st).snd,
        y ∈ st.snd ∨ y ∈ l := by
  intro l
  induction l with
  | nil => intro st y hy; exact Or.inl hy
  | cons x xs ih =>
    intro st y hy
    simp only [List.foldl_cons] at hy
    rcases ih _ y hy with hst | hxs
    · rcases processPackage_snd g skip action st x with he | he
      · rw [he] at hst
        exact Or.inl hst
      · rw [he] at hst
        rcases List.mem_append.mp hst with h | h
        · exact Or.inl h
        · simp at h
          subst h
          exact Or.inr (by simp)
    · exact Or.inr (by simp [hxs])

theorem resultOf_append_ne {m : List (String × BuildResult)} {q x : String}
    (hqx : q ≠ x) (r : BuildResult) :
    resultOf (m ++ [(x, r)]) q = resultOf m q := by
  cases hv : resultOf m q with
  | some v => rw [resultOf_append_some _ hv]
  | none =>
    rw [resultOf_append_none _ hv, resultOf_cons]
    have : ((x, r).fst == q) = false := by
      simp
      exact fun h => hqx h.symm
    rw [this]
    simp [resultOf]

theorem resultOf_append_entry {m₁ m₂ : List (String × BuildResult)}
    {q : String} (h : resultOf m₁ q = resultOf m₂ q)
    (e : String × BuildResult) :
    resultOf (m₁ ++ [e]) q = resultOf (m₂ ++ [e]) q := by
  cases hv : resultOf m₁ q with
  | some v =>
    rw [resultOf_append_some _ hv, resultOf_append_some _ (h ▸ hv)]
  | none =>
    rw [resultOf_append_none _ hv, resultOf_append_none _ (h ▸ hv)]

theorem step_agree {g : DepGraph} {skip f f' : String → Bool} {p : String}
    (hf : ∀ x, x ≠ p → f x = f' x)
    {st₁ st₂ : List (String × BuildResult) × List String}
    (hinv : ∀ q, q ≠ p → ¬ TransDepOn g q p →
      resultOf st₁.fst q = resultOf st₂.fst q) (x : String) :
    ∀ q, q ≠ p → ¬ TransDepOn g q p →
      resultOf (processPackage g skip f st₁ x).fst q =
        resultOf (processPackage g skip f' st₂ x).fst q := by
  intro q hqp hqt
  by_cases hx : x ≠ p ∧ ¬ TransDepOn g x p
  · have hdep : ∀ d ∈ depsOf g x, d ≠ p ∧ ¬ TransDepOn g d p := by
      intro d hd
      constructor
      · rintro rfl
        exact hx.2 (Relation.TransGen.single hd)
      · intro ht
        exact hx.2 (Relation.TransGen.head hd ht)
    have hany : ((depsOf g x).any
          (fun d => blocksDependents (resultOf st₁.fst d))) =
        ((depsOf g x).any
          (fun d => blocksDependents (resultOf st₂.fst d))) :=
      any_congr _ (fun d hd => by
        rw [hinv d (hdep d hd).1 (hdep d hd).2])
    have hfx : f x = f' x := hf x hx.1
    unfold processPackage
    rw [hany, hfx]
    by_cases h1 : ((depsOf g x).any
        (fun d => blocksDependents (resultOf st₂.fst d))) = true
    · rw [if_pos h1, if_pos h1]
      exact resultOf_append_entry (hinv q hqp hqt) _
    · rw [if_neg h1, if_neg h1]
      by_cases h2 : skip x = true
      · rw [if_pos h2, if_pos h2]
        exact resultOf_append_entry (hinv q hqp hqt) _
      · rw [if_neg h2, if_neg h2]
        by_cases h3 : f' x = true
        · rw [if_pos h3, if_pos h3]
          exact resultOf_append_entry (hinv q hqp hqt) _
        · rw [if_neg h3, if_neg h3]
          exact resultOf_append_entry (hinv q hqp hqt) _
  · have hqx : q ≠ x := by
      intro h
      subst h
      exact hx ⟨hqp, hqt⟩
    obtain ⟨r₁, hr₁⟩ := processPackage_fst g skip f st₁ x
    obtain ⟨r₂, hr₂⟩ := processPackage_fst g skip f' st₂ x
    rw [hr₁, hr₂, resultOf_append_ne hqx, resultOf_append_ne hqx]
    exact hinv q hqp hqt

theorem runFold_agree {g : DepGraph} {skip f f' : String → Bool}
    {p : String} (hf : ∀ x, x ≠ p → f x = f' x) :
    ∀ (l : List String)
      (st₁ st₂ : List (String × BuildResult) × List String),
      (∀ q, q ≠ p → ¬ TransDepOn g q p →
        resultOf st₁.fst q = resultOf st₂.fst q) →
      ∀ q, q ≠ p → ¬ TransDepOn g q p →
        resultOf (l.foldl (processPackage g skip f) st₁).fst q =
          resultOf (l.foldl (processPackage g skip f') st₂).fst q := by
  intro l
  induction l with
  | nil => intro st₁ st₂ hinv; exact hinv
  | cons x xs ih =>
    intro st₁ st₂ hinv
    simp only [List.foldl_cons]
    exact ih _ _ (step_agree hf hinv x)

theorem transDepOn_head {g : DepGraph} {q p : String}
    (h : TransDepOn g q p) :
    ∃ d ∈ depsOf g q, d = p ∨ TransDepOn g d p := by
  induction h with
  | single h1 => exact ⟨_, h1, Or.inl rfl⟩
  | tail _ hbc ih =>
    obtain ⟨d, hd, hrest⟩ := ih
    rcases hrest with rfl | hdb
    · exact ⟨d, hd, Or.inr (Relation.TransGen.single hbc)⟩
    · exact ⟨d, hd, Or.inr (Relation.TransGen.tail hdb hbc)⟩

theorem processPackage_blocked {g : DepGraph} {skip action : String → Bool}
    {st : List (String × BuildResult) × List String} {p : String}
    (h : ((depsOf g p).any
      (fun d => blocksDependents (resultOf st.fst d))) = true) :
    processPackage g skip action st p =
      (st.fst ++ [(p, .blocked)], st.snd) := by
  unfold processPackage
  rw [if_pos h]

theorem run_blocked (g : DepGraph) (skip action : String → Bool)
    (order : List String) (hnd : order.Nodup)
    (hord : ∀ x ∈ order, ∀ d ∈ depsOf g x, d ∈ g.nodes →
      order.indexOf d < order.indexOf x)
    {x : String} (hx : x ∈ order) {d : String} (hd : d ∈ depsOf g x)
    (hdn : d ∈ g.nodes)
    (hblk : blocksDependents
      (resultOf (order.foldl (processPackage g skip action)
        ([], [])).fst d) = true) :
    resultOf (order.foldl (processPackage g skip action) ([], [])).fst x =
      some .blocked ∧
    x ∉ (order.foldl (processPackage g skip action) ([], [])).snd := by
  have hkeys := runFold_keys g skip action order ([], [])
  simp only [List.map_nil, List.nil_append] at hkeys
  have hdord : d ∈ order := by
    by_contra hno
    have : resultOf (order.foldl (processPackage g skip action)
        ([], [])).fst d = none := by
      rw [resultOf_none_iff, hkeys]
      exact hno
    rw [this] at hblk
    simp [blocksDependents] at hblk
  have hidx := hord x hx d hd hdn
  obtain ⟨pre, post, hsplit⟩ := List.append_of_mem hx
  have hnd2 := hnd
  rw [hsplit] at hnd2
  rw [List.nodup_append] at hnd2
  obtain ⟨hndpre, hndcons, hdisj⟩ := hnd2
  have hxpre : x ∉ pre := fun hmem => hdisj hmem (by simp)
  have hxpost : x ∉ post := (List.nodup_cons.mp hndcons).1
  have hidxx : order.indexOf x = pre.length := by
    rw [hsplit, List.indexOf_append_of_not_mem hxpre]
    simp
  have hdpre : d ∈ pre := by
    by_contra hno
    have : order.indexOf d ≥ pre.length := by
      rw [hsplit, List.indexOf_append_of_not_mem hno]
      omega
    omega
  have hfold : order.foldl (processPackage g skip action) ([], []) =
      post.foldl (processPackage g skip action)
        (processPackage g skip action
          (pre.foldl (processPackage g skip action) ([], [])) x) := by
    rw [hsplit, List.foldl_append, List.foldl_cons]
  have hkeyspre := runFold_keys g skip action pre ([], [])
  simp only [List.map_nil, List.nil_append] at hkeyspre
  have hdsome : ∃ vd, resultOf
      (pre.foldl (processPackage g skip action) ([], [])).fst d =
        some vd := by
    cases hv : resultOf
        (pre.foldl (processPackage g skip action) ([], [])).fst d with
    | none =>
      rw [resultOf_none_iff, hkeyspre] at hv
      exact absurd hdpre hv
    | some vd => exact ⟨vd, rfl⟩
  obtain ⟨vd, hvd⟩ := hdsome
  have hfinald : resultOf (order.foldl (processPackage g skip action)
      ([], [])).fst d = some vd := by
    rw [hfold]
    refine runFold_mono g skip action post _ ?_
    obtain ⟨r, hr⟩ := processPackage_fst g skip action
      (pre.foldl (processPackage g skip action) ([], [])) x
    rw [hr]
    exact resultOf_append_some _ hvd
  have hblkpre : blocksDependents (resultOf
      (pre.foldl (processPackage g skip action) ([], [])).fst d) = true := by
    rw [hvd]
    rw [hfinald] at hblk
    exact hblk
  have hany : ((depsOf g x).any (fun dd => blocksDependents (resultOf
      (pre.foldl (processPackage g skip action) ([], [])).fst dd))) =
        true :=
    List.any_eq_true.mpr ⟨d, hd, hblkpre⟩
  have hproc : processPackage g skip action
      (pre.foldl (processPackage g skip action) ([], [])) x =
      ((pre.foldl (processPackage g skip action) ([], [])).fst ++
        [(x, .blocked)],
       (pre.foldl (processPackage g skip action) ([], [])).snd) :=
    processPackage_blocked hany
  have hxnone : resultOf
      (pre.foldl (processPackage g skip action) ([], [])).fst x = none := by
    rw [resultOf_none_iff, hkeyspre]
    exact hxpre
  constructor
  · rw [hfold, hproc]
    refine runFold_mono g skip action post _ ?_
    show resultOf ((pre.foldl (processPackage g skip action)
      ([], [])).fst ++ [(x, .blocked)]) x = some .blocked
    rw [resultOf_append_none _ hxnone, resultOf_cons]
    simp [resultOf]
  · rw [hfold, hproc]
    intro hlog
    rcases runFold_log g skip action post _ x hlog with hst | hpost
    · simp only at hst
      rcases runFold_log g skip action pre ([], []) x hst with h0 | hp
      · simp at h0
      · exact hxpre hp
    · exact hxpost hpost

/-- C4: in the scenario with tiers `[[pA], [pB, pC]]` where `pB` depends
on `pA` and the action for `pA` fails, the final results are `pA` Failed,
`pB` Blocked and `pC` Succeeded (or Skipped under a skipping predicate);
in general a failing package never changes the outcome of packages that
do not transitively depend on it, and a package with a Failed or Blocked
direct dependency is marked Blocked without its action being
attempted. -/
theorem orchestrator_contract :
    (resultOf (runPlan gC4 skipNone actC4 planC4).fst "pA" =
        some .failed ∧
     resultOf (runPlan gC4 skipNone actC4 planC4).fst "pB" =
        some .blocked ∧
     resultOf (runPlan gC4 skipNone actC4 planC4).fst "pC" =
        some .succeeded ∧
     resultOf (runPlan gC4 skipC4 actC4 planC4).fst "pC" =
        some .skipped) ∧
    (∀ (g : DepGraph) (skip f f' : String → Bool) (p : String)
       (plan : List (List String)) (q : String),
       (∀ x, x ≠ p → f x = f' x) → q ≠ p → ¬ TransDepOn g q p →
       resultOf (runPlan g skip f plan).fst q =
         resultOf (runPlan g skip f' plan).fst q) ∧
    (∀ (g : DepGraph) (skip action : String → Bool)
       (plan : List (List String)),
       plan.flatten.Nodup →
       (∀ x ∈ plan.flatten, ∀ d ∈ depsOf g x, d ∈ g.nodes →
         plan.flatten.indexOf d < plan.flatten.indexOf x) →
       ∀ x ∈ plan.flatten, ∀ d ∈ depsOf g x, d ∈ g.nodes →
         blocksDependents (resultOf (runPlan g skip action plan).fst d) =
           true →
         resultOf (runPlan g skip action plan).fst x = some .blocked ∧
         x ∉ (runPlan g skip action plan).snd) := by
  refine ⟨⟨by decide, by decide, by decide, by decide⟩, ?_, ?_⟩
  · intro g skip f f' p plan q hf hqp hqt
    unfold runPlan
    exact runFold_agree hf plan.flatten ([], []) ([], [])
      (fun r hr ht => rfl) q hqp hqt
  · intro g skip action plan hnd hord x hx d hd hdn hblk
    unfold runPlan at hblk ⊢
    exact run_blocked g skip action plan.flatten hnd hord hx hd hdn hblk

/-- Closed witness for C4: the concrete scenario, the agreement of the
independent package `pC` between the failing and the all-succeeding
executor, and the blocked propagation to `pB` with no attempted
action. -/
theorem orchestrator_contract_witness :
    resultOf (runPlan gC4 skipNone actC4 planC4).fst "pA" =
      some .failed ∧
    resultOf (runPlan gC4 skipNone actC4 planC4).fst "pC" =
      resultOf (runPlan gC4 skipNone (fun _ => true) planC4).fst "pC" ∧
    resultOf (runPlan gC4 skipNone actC4 planC4).fst "pB" =
      some .blocked ∧
    "pB" ∉ (runPlan gC4 skipNone actC4 planC4).snd := by
  have h := orchestrator_contract
  have hf : ∀ x, x ≠ "pA" → actC4 x = (fun _ => true) x := by
    intro x hx
    simp [actC4, hx]
  have hnc : ¬ TransDepOn gC4 "pC" "pA" := by
    intro hcon
    obtain ⟨dd, hdd, _⟩ := transDepOn_head hcon
    have hnil : depsOf gC4 "pC" = [] := rfl
    rw [hnil] at hdd
    simp at hdd
  have hagree := h.2.1 gC4 skipNone actC4 (fun _ => true) "pA" planC4
    "pC" hf (by decide) hnc
  have hblocked := h.2.2 gC4 skipNone actC4 planC4 (by decide)
    (by decide) "pB" (by decide) "pA" (by decide) (by decide) (by decide)
  exact ⟨h.1.1, hagree, hblocked.1, hblocked.2⟩

/-! ### Builder invariants -/

theorem bestCandidate_mem_cat {cat : Catalog} {req name : String}
    {c : Option Constraint} {q : Package}
    (h : bestCandidate cat req name c = .ok q) : q ∈ cat := by
  unfold bestCandidate at h
  cases hs : satCandidates cat name c with
  | nil => rw [hs] at h; cases h
  | cons p ps =>
    rw [hs] at h
    injection h with h
    have hmem := pickBest_mem ps p
    rw [h] at hmem
    rw [← hs] at hmem
    unfold satCandidates at hmem
    have hmem2 := List.mem_of_mem_filter hmem
    unfold lookupCandidates at hmem2
    exact List.mem_of_mem_filter hmem2

theorem bestCandidate_error_shape {cat : Catalog} {req name : String}
    {c : Option Constraint} {e : ResolutionError}
    (h : bestCandidate cat req name c = .error e) :
    e = .unresolvable req := by
  unfold bestCandidate at h
  cases hs : satCandidates cat name c with
  | nil =>
    rw [hs] at h
    injection h with h
    exact h.symm
  | cons p ps =>
    rw [hs] at h
    cases h

theorem resolveDeps_good (cat : Catalog) (roots : List String)
    (p : Package) (hp : p ∈ cat) (chain : List String)
    (hcne : chain ≠ []) (hclast : chain.getLast? = some p.name)
    (hchead : ∃ r ∈ roots, ∃ q, bestCandidate cat r r none = .ok q ∧
      chain.head? = some q.name)
    (hcchain : List.Chain' (DeclLink cat) chain) :
    ∀ (deps : List (String × Option Constraint)) (st : BuildSt),
      (∀ x ∈ deps, x ∈ p.deps) → GoodState cat roots st →
      (∀ st2, resolveDeps cat p chain deps st = .ok st2 →
        GoodState cat roots st2) ∧
      (∀ ch, resolveDeps cat p chain deps st =
          .error (.unresolvedDep ch) → ChainProp cat roots ch) := by
  intro deps
  induction deps with
  | nil =>
    intro st hsub hgood
    constructor
    · intro st2 h
      simp only [resolveDeps] at h
      injection h with h
      subst h
      exact hgood
    · intro ch h
      simp only [resolveDeps] at h
      cases h
  | cons dc rest ih =>
    obtain ⟨dname, c⟩ := dc
    intro st hsub hgood
    have hdmem : (dname, c) ∈ p.deps := hsub _ (by simp)
    have hsubrest : ∀ x ∈ rest, x ∈ p.deps :=
      fun x hx => hsub x (by simp [hx])
    have hheadlift : ∀ a : String,
        (chain ++ [a]).head? = chain.head? := by
      intro a
      cases chain with
      | nil => exact absurd rfl hcne
      | cons b t => simp
    have hlink : ∀ (b : String),
        (b = dname ∨ ∃ pb, bestCandidate cat p.name dname c = .ok pb ∧
          pb.name = b) →
        List.Chain' (DeclLink cat) (chain ++ [b]) := by
      intro b hb
      rw [List.chain'_append]
      refine ⟨hcchain, List.chain'_singleton _, ?_⟩
      intro x hx y hy
      simp at hy
      subst hy
      rw [hclast] at hx
      injection hx with hx
      subst hx
      exact ⟨p, hp, rfl, dname, c, hdmem, hb⟩
    cases hm : st.memo.find? (fun e => e.fst == dname) with
    | some e =>
      have hstep : resolveDeps cat p chain ((dname, c) :: rest) st =
          resolveDeps cat p chain rest
            ⟨st.chosen, st.edges ++ [(p.name, e.snd)], st.memo,
             st.queue⟩ := by
        simp only [resolveDeps]
        rw [hm]
      rw [hstep]
      exact ih _ hsubrest hgood
    | none =>
      cases hb : bestCandidate cat p.name dname c with
      | error err =>
        have hstep : resolveDeps cat p chain ((dname, c) :: rest) st =
            .error (.unresolvedDep (chain ++ [dname])) := by
          simp only [resolveDeps]
          rw [hm, hb]
        rw [hstep]
        constructor
        · intro st2 h
          cases h
        · intro ch h
          injection h with h
          injection h with h
          subst h
          refine ⟨?_, ?_, hlink dname (Or.inl rfl)⟩
          · have h1 : 1 ≤ chain.length := List.length_pos.mpr hcne
            simp only [List.length_append, List.length_cons,
              List.length_nil]
            omega
          · obtain ⟨r, hr, qq, hbq, hhead⟩ := hchead
            exact ⟨r, hr, qq, hbq, by rw [hheadlift dname]; exact hhead⟩
      | ok q =>
        have hqcat : q ∈ cat := bestCandidate_mem_cat hb
        cases hc : st.chosen.find? (fun r =>
            q.conflicts.contains r.name ||
              r.conflicts.contains q.name) with
        | some r =>
          have hstep : resolveDeps cat p chain ((dname, c) :: rest) st =
              .error (.conflict r.name q.name) := by
            simp only [resolveDeps]
            rw [hm, hb]
            dsimp only
            rw [hc]
          rw [hstep]
          constructor
          · intro st2 h
            cases h
          · intro ch h
            simp at h
        | none =>
          have hnoconf := List.find?_eq_none.mp hc
          by_cases hdup : (st.chosen.any (fun r => r.name == q.name)) =
              true
          · have hstep : resolveDeps cat p chain ((dname, c) :: rest)
                st = resolveDeps cat p chain rest
                  ⟨st.chosen, st.edges ++ [(p.name, q.name)],
                   st.memo ++ [(dname, q.name)], st.queue⟩ := by
              simp only [resolveDeps]
              rw [hm, hb]
              dsimp only
              rw [hc]
              dsimp only
              rw [if_pos hdup]
            rw [hstep]
            exact ih _ hsubrest hgood
          · have hdup2 : (st.chosen.any (fun r => r.name == q.name)) =
                false := by simpa using hdup
            have hstep : resolveDeps cat p chain ((dname, c) :: rest)
                st = resolveDeps cat p chain rest
                  ⟨st.chosen ++ [q], st.edges ++ [(p.name, q.name)],
                   st.memo ++ [(dname, q.name)],
                   st.queue ++ [(q, chain ++ [q.name])]⟩ := by
              simp only [resolveDeps]
              rw [hm, hb]
              dsimp only
              rw [hc]
              dsimp only
              rw [if_neg hdup]
            rw [hstep]
            refine ih _ hsubrest ?_
            obtain ⟨hnd, hcat, hconf, hqueue⟩ := hgood
            have hqnotin : q.name ∉ st.chosen.map Package.name := by
              intro hmem
              rw [List.mem_map] at hmem
              obtain ⟨r, hr, hrname⟩ := hmem
              have hfalse := List.any_eq_false.mp hdup2 r hr
              simp [hrname] at hfalse
            refine ⟨?_, ?_, ?_, ?_⟩
            · show ((st.chosen ++ [q]).map Package.name).Nodup
              rw [List.map_append, List.nodup_append]
              refine ⟨hnd, by simp, ?_⟩
              intro x hx hx2
              simp at hx2
              subst hx2
              exact hqnotin hx
            · intro x hx
              rcases List.mem_append.mp hx with h | h
              · exact hcat x h
              · simp at h
                subst h
                exact hqcat
            · intro a ha b hbm hab
              have hside : ∀ z ∈ st.chosen,
                  z.name ∉ q.conflicts ∧ q.name ∉ z.conflicts := by
                intro z hz
                have hz2 := hnoconf z hz
                simp at hz2
                exact hz2
              rcases List.mem_append.mp ha with ha2 | ha2 <;>
                rcases List.mem_append.mp hbm with hb2 | hb2
              · exact hconf a ha2 b hb2 hab
              · simp at hb2
                subst hb2
                exact ⟨(hside a ha2).1, (hside a ha2).2⟩
              · simp at ha2
                subst ha2
                exact ⟨(hside b hb2).2, (hside b hb2).1⟩
              · simp at ha2 hb2
                subst ha2
                subst hb2
                exact absurd rfl hab
            · intro e he
              rcases List.mem_append.mp he with h | h
              · exact hqueue e h
              · simp at h
                subst h
                refine ⟨hqcat, by simp, List.getLast?_concat chain, ?_,
                  hlink q.name (Or.inr ⟨q, hb, rfl⟩)⟩
                obtain ⟨r, hr, qq, hbq, hhead⟩ := hchead
                exact ⟨r, hr, qq, hbq, by
                  rw [hheadlift q.name]; exact hhead⟩

theorem resolveRoots_good (cat : Catalog) (roots : List String) :
    ∀ (rs : List String) (st : BuildSt), (∀ r ∈ rs, r ∈ roots) →
      GoodState cat roots st →
      (∀ st2, resolveRoots cat rs st = .ok st2 →
        GoodState cat roots st2) ∧
      (∀ ch, resolveRoots cat rs st = .error (.unresolvedDep ch) →
        ChainProp cat roots ch) := by
  intro rs
  induction rs with
  | nil =>
    intro st hsub hgood
    constructor
    · intro st2 h
      simp only [resolveRoots] at h
      injection h with h
      subst h
      exact hgood
    · intro ch h
      simp only [resolveRoots] at h
      cases h
  | cons r rs ih =>
    intro st hsub hgood
    have hrroot : r ∈ roots := hsub r (by simp)
    have hsubrest : ∀ x ∈ rs, x ∈ roots :=
      fun x hx => hsub x (by simp [hx])
    cases hm : st.memo.find? (fun e => e.fst == r) with
    | some e =>
      have hstep : resolveRoots cat (r :: rs) st =
          resolveRoots cat rs st := by
        simp only [resolveRoots]
        rw [hm]
      rw [hstep]
      exact ih st hsubrest hgood
    | none =>
      cases hb : bestCandidate cat r r none with
      | error err =>
        have hstep : resolveRoots cat (r :: rs) st = .error err := by
          simp only [resolveRoots]
          rw [hm]
          dsimp only
          rw [hb]
        rw [hstep]
        constructor
        · intro st2 h
          cases h
        · intro ch h
          injection h with h
          have hshape := bestCandidate_error_shape hb
          rw [hshape] at h
          cases h
      | ok q =>
        have hqcat := bestCandidate_mem_cat hb
        cases hc : st.chosen.find? (fun t =>
            q.conflicts.contains t.name ||
              t.conflicts.contains q.name) with
        | some t =>
          have hstep : resolveRoots cat (r :: rs) st =
              .error (.conflict t.name q.name) := by
            simp only [resolveRoots]
            rw [hm]
            dsimp only
            rw [hb]
            dsimp only
            rw [hc]
          rw [hstep]
          constructor
          · intro st2 h
            cases h
          · intro ch h
            simp at h
        | none =>
          have hnoconf := List.find?_eq_none.mp hc
          by_cases hdup : (st.chosen.any (fun t => t.name == q.name)) =
              true
          · have hstep : resolveRoots cat (r :: rs) st =
                resolveRoots cat rs
                  ⟨st.chosen, st.edges, st.memo ++ [(r, q.name)],
                   st.queue⟩ := by
              simp only [resolveRoots]
              rw [hm]
              dsimp only
              rw [hb]
              dsimp only
              rw [hc]
              dsimp only
              rw [if_pos hdup]
            rw [hstep]
            exact ih _ hsubrest hgood
          · have hdup2 : (st.chosen.any (fun t => t.name == q.name)) =
                false := by simpa using hdup
            have hstep : resolveRoots cat (r :: rs) st =
                resolveRoots cat rs
                  ⟨st.chosen ++ [q], st.edges,
                   st.memo ++ [(r, q.name)],
                   st.queue ++ [(q, [q.name])]⟩ := by
              simp only [resolveRoots]
              rw [hm]
              dsimp only
              rw [hb]
              dsimp only
              rw [hc]
              dsimp only
              rw [if_neg hdup]
            rw [hstep]
            refine ih _ hsubrest ?_
            obtain ⟨hnd, hcat2, hconf, hqueue⟩ := hgood
            have hqnotin : q.name ∉ st.chosen.map Package.name := by
              intro hmem
              rw [List.mem_map] at hmem
              obtain ⟨t, ht, htname⟩ := hmem
              have hfalse := List.any_eq_false.mp hdup2 t ht
              simp [htname] at hfalse
            refine ⟨?_, ?_, ?_, ?_⟩
            · show ((st.chosen ++ [q]).map Package.name).Nodup
              rw [List.map_append, List.nodup_append]
              refine ⟨hnd, by simp, ?_⟩
              intro x hx hx2
              simp at hx2
              subst hx2
              exact hqnotin hx
            · intro x hx
              rcases List.mem_append.mp hx with h | h
              · exact hcat2 x h
              · simp at h
                subst h
                exact hqcat
            · intro a ha b hbm hab
              have hside : ∀ z ∈ st.chosen,
                  z.name ∉ q.conflicts ∧ q.name ∉ z.conflicts := by
                intro z hz
                have hz2 := hnoconf z hz
                simp at hz2
                exact hz2
              rcases List.mem_append.mp ha with ha2 | ha2 <;>
                rcases List.mem_append.mp hbm with hb2 | hb2
              · exact hconf a ha2 b hb2 hab
              · simp at hb2
                subst hb2
                exact ⟨(hside a ha2).1, (hside a ha2).2⟩
              · simp at ha2
                subst ha2
                exact ⟨(hside b hb2).2, (hside b hb2).1⟩
              · simp at ha2 hb2
                subst ha2
                subst hb2
                exact absurd rfl hab
            · intro e he
              rcases List.mem_append.mp he with h | h
              · exact hqueue e h
              · simp at h
                subst h
                exact ⟨hqcat, by simp, by simp,
                  ⟨r, hrroot, q, hb, by simp⟩,
                  List.chain'_singleton _⟩

theorem buildLoop_good (cat : Catalog) (roots : List String) :
    ∀ (fuel : Nat) (st : BuildSt), GoodState cat roots st →
      (∀ st2, buildLoop cat fuel st = .ok st2 →
        (st2.chosen.map Package.name).Nodup ∧
        (∀ p ∈ st2.chosen, p ∈ cat) ∧
        (∀ p ∈ st2.chosen, ∀ q ∈ st2.chosen, p ≠ q →
          p.name ∉ q.conflicts ∧ q.name ∉ p.conflicts)) ∧
      (∀ ch, buildLoop cat fuel st = .error (.unresolvedDep ch) →
        ChainProp cat roots ch) := by
  intro fuel
  induction fuel with
  | zero =>
    intro st hgood
    constructor
    · intro st2 h
      simp only [buildLoop] at h
      cases hq : st.queue with
      | nil =>
        rw [hq] at h
        injection h with h
        subst h
        exact ⟨hgood.1, hgood.2.1, hgood.2.2.1⟩
      | cons e qrest =>
        rw [hq] at h
        cases h
    · intro ch h
      simp only [buildLoop] at h
      cases hq : st.queue with
      | nil =>
        rw [hq] at h
        cases h
      | cons e qrest =>
        rw [hq] at h
        injection h with h
        cases h
  | succ fuel ih =>
    intro st hgood
    cases hq : st.queue with
    | nil =>
      have hstep : buildLoop cat (fuel + 1) st = .ok st := by
        simp only [buildLoop]
        rw [hq]
      rw [hstep]
      constructor
      · intro st2 h
        injection h with h
        subst h
        exact ⟨hgood.1, hgood.2.1, hgood.2.2.1⟩
      · intro ch h
        cases h
    | cons pc qrest =>
      obtain ⟨p, chain⟩ := pc
      have hentry : QueueEntryOk cat roots (p, chain) :=
        hgood.2.2.2 _ (by rw [hq]; simp)
      obtain ⟨hpcat, hcne, hclast, hchead, hcchain⟩ := hentry
      have hgood2 : GoodState cat roots
          ⟨st.chosen, st.edges, st.memo, qrest⟩ := by
        refine ⟨hgood.1, hgood.2.1, hgood.2.2.1, ?_⟩
        intro e he
        exact hgood.2.2.2 e (by rw [hq]; simp [he])
      have hrd := resolveDeps_good cat roots p hpcat chain hcne hclast
        hchead hcchain p.deps ⟨st.chosen, st.edges, st.memo, qrest⟩
        (fun x hx => hx) hgood2
      cases hres : resolveDeps cat p chain p.deps
          ⟨st.chosen, st.edges, st.memo, qrest⟩ with
      | error e =>
        have hstep : buildLoop cat (fuel + 1) st = .error e := by
          simp only [buildLoop]
          rw [hq]
          dsimp only
          rw [hres]
        rw [hstep]
        constructor
        · intro st2 h
          cases h
        · intro ch h
          injection h with h
          subst h
          exact hrd.2 ch hres
      | ok st2 =>
        have hstep : buildLoop cat (fuel + 1) st =
            buildLoop cat fuel st2 := by
          simp only [buildLoop]
          rw [hq]
          dsimp only
          rw [hres]
        rw [hstep]
        exact ih st2 (hrd.1 st2 hres)

theorem build_good (cat : Catalog) (roots : List String) :
    (∀ chosen edges, build cat roots = .ok (chosen, edges) →
      (chosen.map Package.name).Nodup ∧
      (∀ p ∈ chosen, p ∈ cat) ∧
      (∀ p ∈ chosen, ∀ q ∈ chosen, p ≠ q →
        p.name ∉ q.conflicts ∧ q.name ∉ p.conflicts)) ∧
    (∀ ch, build cat roots = .error (.unresolvedDep ch) →
      ChainProp cat roots ch) := by
  have hinit : GoodState cat roots ⟨[], [], [], []⟩ := by
    exact ⟨by simp, by simp, by simp, by simp⟩
  have hroots := resolveRoots_good cat roots roots ⟨[], [], [], []⟩
    (fun r hr => hr) hinit
  constructor
  · intro chosen edges h
    unfold build at h
    cases hr : resolveRoots cat roots ⟨[], [], [], []⟩ with
    | error e =>
      rw [hr] at h
      cases h
    | ok st =>
      rw [hr] at h
      dsimp only at h
      cases hl : buildLoop cat (cat.length + roots.length + 1) st with
      | error e =>
        rw [hl] at h
        cases h
      | ok st2 =>
        rw [hl] at h
        dsimp only at h
        injection h with h
        have hprops := (buildLoop_good cat roots
          (cat.length + roots.length + 1) st (hroots.1 st hr)).1 st2 hl
        have hcc : st2.chosen = chosen := congrArg Prod.fst h
        rw [← hcc]
        exact hprops
  · intro ch h
    unfold build at h
    cases hr : resolveRoots cat roots ⟨[], [], [], []⟩ with
    | error e =>
      rw [hr] at h
      dsimp only at h
      injection h with h
      subst h
      exact hroots.2 ch hr
    | ok st =>
      rw [hr] at h
      dsimp only at h
      cases hl : buildLoop cat (cat.length + roots.length + 1) st with
      | error e =>
        rw [hl] at h
        dsimp only at h
        injection h with h
        subst h
        exact (buildLoop_good cat roots
          (cat.length + roots.length + 1) st (hroots.1 st hr)).2 ch hl
      | ok st2 =>
        rw [hl] at h
        cases h

/-- C6: resolved names are memoized within a run, so the built graph
contains at most one node per name and the plan lists each name once;
in the concrete diamond scenario the shared dependency `libZ` resolves
to a single node appearing exactly once in the plan. -/
theorem diamond_memoization :
    (∀ (cat : Catalog) (roots : List String) chosen edges,
      build cat roots = .ok (chosen, edges) →
      (chosen.map Package.name).Nodup) ∧
    (∀ (cat : Catalog) (roots : List String) plan,
      blinkyPlan cat roots = .ok plan → plan.flatten.Nodup) ∧
    build catC6 ["rootX", "rootY"] =
      .ok ([pkgX, pkgY, pkgZ],
        [("rootX", "libZ"), ("rootY", "libZ")]) ∧
    (([pkgX, pkgY, pkgZ] : List Package).map Package.name).count
      "libZ" = 1 ∧
    blinkyPlan catC6 ["rootX", "rootY"] =
      .ok [["libZ"], ["rootX", "rootY"]] ∧
    ([["libZ"], ["rootX", "rootY"]] :
      List (List String)).flatten.count "libZ" = 1 := by
  refine ⟨?_, ?_, by rfl, by decide, by rfl, by decide⟩
  · intro cat roots chosen edges h
    exact ((build_good cat roots).1 chosen edges h).1
  · intro cat roots plan h
    unfold blinkyPlan at h
    cases hr : blinkyResolve cat roots with
    | error e =>
      rw [hr] at h
      cases h
    | ok g =>
      rw [hr] at h
      dsimp only at h
      cases hs : schedule g with
      | error path =>
        rw [hs] at h
        cases h
      | ok plan2 =>
        rw [hs] at h
        dsimp only at h
        injection h with h
        subst h
        exact (schedule_ok_props hs).2.1

/-- Closed witness for C6 on the diamond catalog. -/
theorem diamond_memoization_witness :
    (([pkgX, pkgY, pkgZ] : List Package).map Package.name).Nodup ∧
    ([["libZ"], ["rootX", "rootY"]] :
      List (List String)).flatten.Nodup := by
  have h := diamond_memoization
  exact ⟨h.1 catC6 ["rootX", "rootY"] [pkgX, pkgY, pkgZ]
      [("rootX", "libZ"), ("rootY", "libZ")] (by rfl),
    h.2.1 catC6 ["rootX", "rootY"] [["libZ"], ["rootX", "rootY"]]
      (by rfl)⟩

/-- C7: resolution is a pure function of the catalog snapshot and root
set, so resolving twice yields identical results, and within a run at
most one concrete package is chosen per logical name. -/
theorem resolution_idempotent :
    (∀ (cat : Catalog) (roots : List String),
      build cat roots = build cat roots ∧
      blinkyPlan cat roots = blinkyPlan cat roots) ∧
    (∀ (cat : Catalog) (roots : List String) chosen edges,
      build cat roots = .ok (chosen, edges) →
      ∀ n, (chosen.map Package.name).count n ≤ 1) := by
  refine ⟨fun cat roots => ⟨rfl, rfl⟩, ?_⟩
  intro cat roots chosen edges h n
  exact List.nodup_iff_count_le_one.mp
    ((build_good cat roots).1 chosen edges h).1 n

/-- Closed witness for C7 on the diamond catalog. -/
theorem resolution_idempotent_witness :
    build catC6 ["rootX", "rootY"] = build catC6 ["rootX", "rootY"] ∧
    (([pkgX, pkgY, pkgZ] : List Package).map Package.name).count
      "libZ" ≤ 1 := by
  have h := resolution_idempotent
  exact ⟨(h.1 catC6 ["rootX", "rootY"]).1,
    h.2 catC6 ["rootX", "rootY"] [pkgX, pkgY, pkgZ]
      [("rootX", "libZ"), ("rootY", "libZ")] (by rfl) "libZ"⟩

/-- C8: a successful resolution never contains two distinct packages
declaring each other as conflicting; in the concrete mutual-conflict
scenario resolution yields a `ConflictError` naming both packages, and
the pipeline executes no build action (empty action log). -/
theorem conflict_detection :
    (∀ (cat : Catalog) (roots : List String) chosen edges,
      build cat roots = .ok (chosen, edges) →
      ∀ p ∈ chosen, ∀ q ∈ chosen, p ≠ q →
        ¬(q.name ∈ p.conflicts ∧ p.name ∈ q.conflicts)) ∧
    blinkyResolve catC8 ["cfA", "cfB"] =
      .error (.conflict "cfA" "cfB") ∧
    blinkyMain catC8 ["cfA", "cfB"] skipNone (fun _ => true) =
      (.error (.conflict "cfA" "cfB"), []) := by
  refine ⟨?_, by rfl, by rfl⟩
  intro cat roots chosen edges h p hp q hq hpq hcon
  exact (((build_good cat roots).1 chosen edges h).2.2 p hp q hq hpq).2
    hcon.1

/-- Closed witness for C8: the concrete conflict error, and the
no-mutual-conflict invariant applied to the successfully built diamond
catalog. -/
theorem conflict_detection_witness :
    blinkyResolve catC8 ["cfA", "cfB"] =
      .error (.conflict "cfA" "cfB") ∧
    ¬(pkgY.name ∈ pkgX.conflicts ∧ pkgX.name ∈ pkgY.conflicts) := by
  have h := conflict_detection
  exact ⟨h.2.1, h.1 catC6 ["rootX", "rootY"] [pkgX, pkgY, pkgZ]
    [("rootX", "libZ"), ("rootY", "libZ")] (by rfl) pkgX (by simp)
    pkgY (by simp) (by decide)⟩

/-- C9: a resolution-phase error aborts the whole run with no build or
install action executed, and an `UnresolvedDependencyError` names the
full chain from the resolved root to the failing package (at least two
names, starting at a root's resolved package, linked by declared
dependencies). -/
theorem resolution_errors_fatal :
    (∀ (cat : Catalog) (roots : List String)
       (skip action : String → Bool) (e : ResolutionError),
       (blinkyMain cat roots skip action).fst = .error e →
       (blinkyMain cat roots skip action).snd = []) ∧
    (∀ (cat : Catalog) (roots : List String) (ch : List String),
      build cat roots = .error (.unresolvedDep ch) →
      2 ≤ ch.length ∧
      (∃ r ∈ roots, ∃ q, bestCandidate cat r r none = .ok q ∧
        ch.head? = some q.name) ∧
      List.Chain' (DeclLink cat) ch) := by
  constructor
  · intro cat roots skip action e h
    unfold blinkyMain at h ⊢
    cases hr : blinkyResolve cat roots with
    | error e2 =>
      rfl
    | ok g =>
      rw [hr] at h
      dsimp only at h ⊢
      cases hs : schedule g with
      | error path =>
        rfl
      | ok plan =>
        rw [hs] at h
        dsimp only at h
        cases h
  · intro cat roots ch h
    exact (build_good cat roots).2 ch h

/-- Closed witness for C9 on the missing-dependency catalog. -/
theorem resolution_errors_fatal_witness :
    (blinkyMain catC9 ["top"] skipNone (fun _ => true)).snd = [] ∧
    (2 ≤ (["top", "mid", "ghost"] : List String).length ∧
     (∃ r ∈ ["top"], ∃ q, bestCandidate catC9 r r none = .ok q ∧
       (["top", "mid", "ghost"] : List String).head? = some q.name) ∧
     List.Chain' (DeclLink catC9) ["top", "mid", "ghost"]) := by
  have h := resolution_errors_fatal
  exact ⟨h.1 catC9 ["top"] skipNone (fun _ => true)
      (.unresolvedDep ["top", "mid", "ghost"]) (by rfl),
    h.2 catC9 ["top"] ["top", "mid", "ghost"] (by rfl)⟩

/-- C10: evaluating `src/setup.py` reads `README.md` before calling
`setup`; with no `README.md` it raises and `setup` is never invoked, and
with a `README.md` present `setup` receives the fixed metadata with the
file's entire contents as the long description. -/
theorem setup_reads_readme (fs : String → Option String) :
    (fs "README.md" = none → setupMain fs = none) ∧
    (∀ contents, fs "README.md" = some contents →
      ∃ args, setupMain fs = some args ∧ args.name = "blinky" ∧
        args.version = "0.1" ∧ args.packages = ["blinky"] ∧
        args.scripts = ["scripts/blinky"] ∧
        args.longDescription = contents) := by
  constructor
  · intro h
    unfold setupMain
    rw [h]
  · intro contents h
    refine ⟨⟨"blinky", "0.1", "Jonas Große Sundrup",
      "cherti@letopolis.de", ["blinky"], ["scripts/blinky"],
      "https://github.com/cherti/blinky", "GPLv3",
      "AUR-helper with minimal hassle", contents, "text/markdown"⟩,
      ?_, rfl, rfl, rfl, rfl, rfl⟩
    unfold setupMain
    rw [h]

/-- Closed witness for C10 with a present and an absent `README.md`. -/
theorem setup_reads_readme_witness :
    setupMain fsEmpty = none ∧
    ∃ args, setupMain fsWithReadme = some args ∧ args.name = "blinky" ∧
      args.version = "0.1" ∧ args.packages = ["blinky"] ∧
      args.scripts = ["scripts/blinky"] ∧
      args.longDescription = "hello" := by
  exact ⟨(setup_reads_readme fsEmpty).1 (by rfl),
    (setup_reads_readme fsWithReadme).2 "hello" (by rfl)⟩

end Blinky
